import Mathlib

/-!
Verification development for the PltUI palette editor (TPL record codec,
palette document model, keyframe animation engine, serializer).

The JavaScript sources are shallowly embedded:
  - strings are `List Char` (`Str`);
  - JS numbers appearing as parsed integers / frame indices are `Int`
    (all integer-valued at the modelled call sites); the single
    fractional computation (`Math.round` of the keyframe interpolation)
    is modelled exactly, with the rational value represented as an
    integer numerator/denominator pair and `Math.round` as
    floor(x + 1/2) (JS rounds half toward positive infinity);
  - a JS object field that may be absent (`undefined`) is an `Option`;
  - a JS operation that would throw a `TypeError` returns `none`;
  - JS regexes are transcribed as deterministic scanners (every
    quantified class in the two style-record regexes is followed by a
    disjoint class, so backtracking can only occur at the optional
    trace group, which is modelled explicitly);
  - `Array.prototype.sort` with comparator `(a,b) => a.frame - b.frame`
    is a stable sort by frame and is modelled by `List.insertionSort`
    (stable, hence extensionally the same function on every input).
-/

/-- Strings of the JS model: immutable lists of characters. -/
abbrev Str := List Char

/-- Decimal digit characters, as produced by JS number-to-string coercion. -/
def digitChar : Nat → Char
  | 0 => '0'
  | 1 => '1'
  | 2 => '2'
  | 3 => '3'
  | 4 => '4'
  | 5 => '5'
  | 6 => '6'
  | 7 => '7'
  | 8 => '8'
  | _ => '9'

/-- Test for an ASCII decimal digit, the `\d` class of the record regexes. -/
def isDigitChar (c : Char) : Bool := '0' ≤ c && c ≤ '9'

/-- Test for whitespace, the `\s` class of the record regexes
(ASCII whitespace; the Unicode extras of JS `\s` never occur in the
modelled inputs). -/
def isSpaceChar (c : Char) : Bool :=
  c = ' ' || c = '\t' || c = '\n' || c = '\r' || c = '\x0b' || c = '\x0c'

/-- Numeric value of a decimal digit character (0 for non-digits). -/
def charVal (c : Char) : Nat :=
  if c = '0' then 0 else if c = '1' then 1 else if c = '2' then 2
  else if c = '3' then 3 else if c = '4' then 4 else if c = '5' then 5
  else if c = '6' then 6 else if c = '7' then 7 else if c = '8' then 8
  else if c = '9' then 9 else 0

/-- Value of a (nonempty, all-digit) character run, as JS `parseInt`
computes it on a plain decimal string. -/
def digitsToNat (ds : Str) : Nat :=
  ds.foldl (fun acc c => acc * 10 + charVal c) 0

/-- Decimal numeral digits, structurally recursive on a fuel argument
(the fuel never runs out when it exceeds the number of digits). -/
def natDigitsAux : Nat → Nat → Str
  | 0, _ => []
  | fuel + 1, n =>
    if n < 10 then [digitChar n]
    else natDigitsAux fuel (n / 10) ++ [digitChar (n % 10)]

/-- Decimal numeral of a natural number, as JS `${n}` prints it. -/
def natDigits (n : Nat) : Str := natDigitsAux (n + 1) n

/-- Decimal numeral of an integer, as JS `${i}` prints it. -/
def intToStr (i : Int) : Str :=
  if i < 0 then '-' :: natDigits (-i).toNat else natDigits i.toNat


/-! ## Data model (`state.js`, `config.js`) -/

/-- Role tags, the keys of `CONFIG.ROLES` in `config.js`. -/
inductive Role where
  | none
  | shadow
  | highlight
  | ao
deriving DecidableEq, Repr

/-- Name suffix of a role, the `suffix` field of `CONFIG.ROLES` in
`config.js` (`'' / '_sh' / '_hl' / '_ao'`). -/
def roleSuffix : Role → Str
  | .none => []
  | .shadow => '_' :: 's' :: 'h' :: []
  | .highlight => '_' :: 'h' :: 'l' :: []
  | .ao => '_' :: 'a' :: 'o' :: []

/-- The entries of `CONFIG.ROLES` in object-literal order
(`none, shadow, highlight, ao`), as iterated by `Object.entries` in the
role-decode loop of `parseStyles`. -/
def rolesList : List (Role × Str) :=
  [(.none, roleSuffix .none), (.shadow, roleSuffix .shadow),
   (.highlight, roleSuffix .highlight), (.ao, roleSuffix .ao)]

/-- A keyframe `{frame, r, g, b, a}` of a color entry's animation track. -/
structure Keyframe where
  frame : Int
  r : Int
  g : Int
  b : Int
  a : Int
deriving DecidableEq, Repr

/-- A color entry, as built by `parseStyles` / `addColor` / `newPalette`.
`keyframes = none` models a JS object carrying no `keyframes` field at
all (the field reads as `undefined`). -/
structure ColorEntry where
  hasTrace : Bool
  id : Str
  name : Str
  tagID : Str
  r : Int
  g : Int
  b : Int
  a : Int
  role : Role
  originalIndex : Nat
  keyframes : Option (List Keyframe)
deriving DecidableEq, Repr

/-- An interpolated RGBA sample, the return value of
`getInterpolatedColor`. -/
structure RGBA where
  r : Int
  g : Int
  b : Int
  a : Int
deriving DecidableEq, Repr

/-- Palette metadata, the object held in `State.paletteData`.
`prefix? = none` models the absence of the `prefix` field (only
`newPalette` ever sets it; `parseTPL` does not). -/
structure PaletteMeta where
  name : Str
  version : Str
  shortcuts : Str
  isStudioPalette : Bool
  originalId : Option Str
  prefix? : Option Str
deriving DecidableEq, Repr

/-- The mutable application state of `state.js` that the modelled
operations touch. -/
structure AppState where
  paletteData : Option PaletteMeta
  colors : List ColorEntry
  selectedColorIndex : Int
  selectedFrame : Int
  endFrame : Int
deriving Repr

/-- Keyframe track invariant of the data model: frame values strictly
ascending (equivalently: sorted ascending with no duplicates). -/
def StrictByFrame (ks : List Keyframe) : Prop :=
  List.Pairwise (· < ·) (ks.map Keyframe.frame)

instance : DecidablePred StrictByFrame := fun ks =>
  inferInstanceAs (Decidable (List.Pairwise _ _))

/-! ## `colorUtils.js` -/

/-- Full export name: `color.name + (CONFIG.ROLES[color.role]?.suffix || '')`. -/
def getFullExportName (c : ColorEntry) : Str := c.name ++ roleSuffix c.role

/-- Short id of a full quoted id (`getShortId` in `colorUtils.js`):
strip every `"` (`replace(/"/g,'')`), split on `'-'` and keep the last
part — i.e. the characters after the last `'-'`, or the whole cleaned
string when it has no dash. -/
def getShortId (fullId : Str) : Str :=
  let clean := fullId.filter (fun c => c ≠ '"')
  (clean.reverse.takeWhile (fun c => c ≠ '-')).reverse

/-- JS `parseInt` restricted to base 10 (no `0x` prefixes occur in the
modelled inputs): skip leading whitespace, read an optional sign and a
longest run of decimal digits; `none` models `NaN`. -/
def digitsPrefixVal (s : Str) : Option Nat :=
  let ds := s.takeWhile isDigitChar
  if ds = [] then none else some (digitsToNat ds)

/-- JS `parseInt` (see `digitsPrefixVal`). -/
def jsParseInt (s : Str) : Option Int :=
  let s1 := s.dropWhile isSpaceChar
  match s1 with
  | '-' :: rest => (digitsPrefixVal rest).map (fun n => -(n : Int))
  | '+' :: rest => (digitsPrefixVal rest).map (fun n => (n : Int))
  | _ => (digitsPrefixVal s1).map (fun n => (n : Int))

/-! ## Record codec (`parser.js parseStyles` regexes) -/

/-- Scanner step shared by the five trailing number groups of both
record regexes: `\s+(\d+)` — at least one whitespace character, then a
nonempty maximal digit run, returned as the raw digit string. -/
def reqSpacesThenDigits (s : Str) : Option (Str × Str) :=
  match s with
  | [] => none
  | c :: rest =>
    if isSpaceChar c then
      let s1 := (c :: rest).dropWhile isSpaceChar
      let ds := s1.takeWhile isDigitChar
      if ds = [] then none else some (ds, s1.dropWhile isDigitChar)
    else none

/-- The five number groups `\s+(\d+)` × 5 (`tagID r g b a`) that close
both record regexes; the regex is not `$`-anchored, so trailing text
after the last digit run is ignored. -/
def matchFiveNums (s : Str) : Option (Str × Nat × Nat × Nat × Nat) := do
  let (t, s1) ← reqSpacesThenDigits s
  let (rd, s2) ← reqSpacesThenDigits s1
  let (gd, s3) ← reqSpacesThenDigits s2
  let (bd, s4) ← reqSpacesThenDigits s3
  let (ad, _) ← reqSpacesThenDigits s4
  return (t, digitsToNat rd, digitsToNat gd, digitsToNat bd, digitsToNat ad)

/-- Groups captured by a studio-record match, in regex order:
trace marker present, quoted id (group 2, quotes included), raw name
(group 3), tagID digit string (group 4), and the four channel values. -/
structure StudioGroups where
  hasTrace : Bool
  id : Str
  rawName : Str
  tagID : Str
  r : Nat
  g : Nat
  b : Nat
  a : Nat
deriving DecidableEq, Repr

/-- Groups captured by a level-record match (no id group). -/
structure LevelGroups where
  hasTrace : Bool
  rawName : Str
  tagID : Str
  r : Nat
  g : Nat
  b : Nat
  a : Nat
deriving DecidableEq, Repr

/-- Body of the studio regex after the optional trace group:
`("[^"]+")([^\s]+)\s+(\d+)\s+(\d+)\s+(\d+)\s+(\d+)\s+(\d+)`. -/
def studioCore (s : Str) : Option (Str × Str × Str × Nat × Nat × Nat × Nat) :=
  match s with
  | '"' :: rest =>
    let idChars := rest.takeWhile (fun c => c ≠ '"')
    let rest1 := rest.dropWhile (fun c => c ≠ '"')
    if idChars = [] then none
    else
      match rest1 with
      | '"' :: rest2 =>
        let nm := rest2.takeWhile (fun c => !isSpaceChar c)
        let rest3 := rest2.dropWhile (fun c => !isSpaceChar c)
        if nm = [] then none
        else
          (matchFiveNums rest3).map
            (fun (t, r, g, b, a) => ('"' :: idChars ++ ['"'], nm, t, r, g, b, a))
      | _ => none
  | _ => none

/-- Body of the level regex after the optional trace group:
`([^\s]+)\s+(\d+)\s+(\d+)\s+(\d+)\s+(\d+)\s+(\d+)`. -/
def levelCore (s : Str) : Option (Str × Str × Nat × Nat × Nat × Nat) :=
  let nm := s.takeWhile (fun c => !isSpaceChar c)
  let rest := s.dropWhile (fun c => !isSpaceChar c)
  if nm = [] then none
  else (matchFiveNums rest).map (fun (t, r, g, b, a) => (nm, t, r, g, b, a))

/-- Studio-record regex
`/^\s*(_1\s+)?("[^"]+")([^\s]+)\s+(\d+)\s+(\d+)\s+(\d+)\s+(\d+)\s+(\d+)/`:
leading whitespace, then the optional trace group `(_1\s+)?` (tried
greedily, with backtracking to the empty match if the rest fails — the
only nondeterministic point of the regex), then the core. -/
def studioMatch (content : Str) : Option StudioGroups :=
  let s := content.dropWhile isSpaceChar
  let noGroup := (studioCore s).map
    (fun (i, n, t, r, g, b, a) => StudioGroups.mk false i n t r g b a)
  match s with
  | '_' :: '1' :: rest =>
    match rest with
    | c :: _ =>
      if isSpaceChar c then
        match studioCore (rest.dropWhile isSpaceChar) with
        | some (i, n, t, r, g, b, a) => some (StudioGroups.mk true i n t r g b a)
        | none => noGroup
      else noGroup
    | [] => noGroup
  | _ => noGroup

/-- Level-record regex
`/^\s*(_1\s+)?([^\s]+)\s+(\d+)\s+(\d+)\s+(\d+)\s+(\d+)\s+(\d+)/`
(same structure, no id group). -/
def levelMatch (content : Str) : Option LevelGroups :=
  let s := content.dropWhile isSpaceChar
  let noGroup := (levelCore s).map
    (fun (n, t, r, g, b, a) => LevelGroups.mk false n t r g b a)
  match s with
  | '_' :: '1' :: rest =>
    match rest with
    | c :: _ =>
      if isSpaceChar c then
        match levelCore (rest.dropWhile isSpaceChar) with
        | some (n, t, r, g, b, a) => some (LevelGroups.mk true n t r g b a)
        | none => noGroup
      else noGroup
    | [] => noGroup
  | _ => noGroup

/-- Role decode loop of `parseStyles`: the first entry of
`CONFIG.ROLES` (in object order) whose suffix is truthy (nonempty) and
is a suffix of the raw name; the clean name drops that suffix
(`rawName.slice(0, -suffix.length)`). -/
def decodeRoleName (rawName : Str) : Str × Role :=
  match rolesList.find? (fun p => !p.2.isEmpty && p.2.isSuffixOf rawName) with
  | some (role, suf) => (rawName.take (rawName.length - suf.length), role)
  | none => (rawName, Role.none)

/-- One iteration of the `styles.forEach` body of `parseStyles`:
match the record against its dialect's regex and build the pushed color
object, or report `none` (the record is skipped with a console warning). -/
def parseStyleRecord (isStudioPalette : Bool) (index : Nat) (content : Str) :
    Option ColorEntry :=
  if isStudioPalette then
    match studioMatch content with
    | none => none
    | some gs =>
      some { hasTrace := gs.hasTrace, id := gs.id,
             name := (decodeRoleName gs.rawName).1,
             tagID := gs.tagID, r := (gs.r : Int), g := (gs.g : Int),
             b := (gs.b : Int), a := (gs.a : Int),
             role := (decodeRoleName gs.rawName).2,
             originalIndex := index, keyframes := some [] }
  else
    match levelMatch content with
    | none => none
    | some gs =>
      some { hasTrace := gs.hasTrace, id := '"' :: natDigits index ++ ['"'],
             name := (decodeRoleName gs.rawName).1, tagID := gs.tagID,
             r := (gs.r : Int), g := (gs.g : Int), b := (gs.b : Int),
             a := (gs.a : Int), role := (decodeRoleName gs.rawName).2,
             originalIndex := index, keyframes := some [] }

/-- The `styles.forEach` loop of `parseStyles`, from a given starting
document index: returns the pushed colors and the skipped record
contents (the warnings), in document order. -/
def parseStylesAux (isStudioPalette : Bool) : Nat → List Str → List ColorEntry × List Str
  | _, [] => ([], [])
  | i, s :: rest =>
    let (cs, ws) := parseStylesAux isStudioPalette (i + 1) rest
    match parseStyleRecord isStudioPalette i s with
    | some e => (e :: cs, ws)
    | none => (cs, s :: ws)

/-- `parseStyles` over the (trimmed) text contents of the
`<styles><style>` nodes. -/
def parseStyles (isStudioPalette : Bool) (records : List Str) :
    List ColorEntry × List Str :=
  parseStylesAux isStudioPalette 0 records

/-! ## Animation engine (`timeline.js`) -/

/-- RGBA sample of a keyframe. -/
def kfRGBA (k : Keyframe) : RGBA := ⟨k.r, k.g, k.b, k.a⟩

/-- Exact value of JS `Math.round(num / den)` for integers with
`den ≠ 0`: `Math.round(x) = floor(x + 1/2)` (half rounds toward `+∞`),
and for `den > 0`, `floor(num/den + 1/2) = (2*num + den) / (2*den)`
in floor division. -/
def roundHalfUp (num den : Int) : Int :=
  if den < 0 then (2 * -num + -den) / (2 * -den)
  else (2 * num + den) / (2 * den)

/-- One channel of the linear interpolation
`Math.round(prevC + (nextC - prevC) * (frame - prev.frame) / frameDiff)`,
computed exactly over the common denominator `frameDiff`. -/
def interpChannel (pC nC pf nf f : Int) : Int :=
  roundHalfUp (pC * (nf - pf) + (nC - pC) * (f - pf)) (nf - pf)

/-- `getInterpolatedColor(frame, color)` of `timeline.js`. -/
def getInterpolatedColor (frame : Int) (c : ColorEntry) : RGBA :=
  match c.keyframes with
  | none => ⟨c.r, c.g, c.b, c.a⟩
  | some ks =>
    if ks.length = 0 then ⟨c.r, c.g, c.b, c.a⟩
    else
      let prevKey? := (ks.filter (fun k => k.frame ≤ frame)).getLast?
      let nextKey? := ks.find? (fun k => frame ≤ k.frame)
      let prevKey := prevKey?.getD (nextKey?.getD ⟨0, c.r, c.g, c.b, c.a⟩)
      let nextKey := nextKey?.getD prevKey
      if nextKey.frame - prevKey.frame = 0 then kfRGBA prevKey
      else
        ⟨interpChannel prevKey.r nextKey.r prevKey.frame nextKey.frame frame,
         interpChannel prevKey.g nextKey.g prevKey.frame nextKey.frame frame,
         interpChannel prevKey.b nextKey.b prevKey.frame nextKey.frame frame,
         interpChannel prevKey.a nextKey.a prevKey.frame nextKey.frame frame⟩

/-- The keyframe order used everywhere: ascending by frame. -/
def kfLE (a b : Keyframe) : Prop := a.frame ≤ b.frame

instance : DecidableRel kfLE := fun a b => inferInstanceAs (Decidable (_ ≤ _))

instance : IsTotal Keyframe kfLE := ⟨fun a b => Int.le_total a.frame b.frame⟩

instance : IsTrans Keyframe kfLE := ⟨fun _ _ _ h1 h2 => le_trans h1 h2⟩

/-- `keyframes.sort((a, b) => a.frame - b.frame)`: a stable ascending
sort by frame (`insertionSort` is stable, hence extensionally identical
to the JS engine's stable sort). -/
def sortKfs (ks : List Keyframe) : List Keyframe := List.insertionSort kfLE ks

/-- `toggleKeyframe` of `timeline.js`, acting on the selected color at
the selected frame: remove the first keyframe at exactly that frame
(`findIndex` / `splice(i,1)`), else insert the currently interpolated
color there and re-sort. `none` models the `TypeError` thrown when the
entry has no `keyframes` field. -/
def toggleKeyframe (frame : Int) (c : ColorEntry) : Option ColorEntry :=
  match c.keyframes with
  | none => none
  | some ks =>
    if ks.any (fun kf => kf.frame == frame) then
      some { c with keyframes := some (ks.eraseP (fun kf => kf.frame == frame)) }
    else
      let fc := getInterpolatedColor frame c
      let ks2 := sortKfs (ks ++ [⟨frame, fc.r, fc.g, fc.b, fc.a⟩])
      some { c with keyframes := some ks2 }

/-! ## Animation parsing (`parser.js parseAnimation`) -/

/-- Channel read from a whitespace-split keyframe body:
`parseInt(keyframeData[i])`. The split tokens of the modelled inputs
are plain decimal numerals; a `NaN` result (non-numeric token) is
represented as `0` — no claim depends on channel values of such
tokens. -/
def jsIntAt (toks : List Str) (i : Nat) : Int :=
  (jsParseInt (toks.getD i [])).getD 0

/-- One `<keyframe frame=N>` node of an animation style: pushed iff its
body splits into at least 6 tokens, with channels read from token
positions 2..5. -/
def animKeyframe (frame : Int) (tokens : List Str) : Option Keyframe :=
  if 6 ≤ tokens.length then
    some ⟨frame, jsIntAt tokens 2, jsIntAt tokens 3, jsIntAt tokens 4, jsIntAt tokens 5⟩
  else none

/-- The per-style body of `parseAnimation`: reset the target's
keyframes, push one keyframe per well-formed `<keyframe>` child in
document order, then sort ascending by frame. -/
def parseAnimStyle (kfNodes : List (Int × List Str)) (c : ColorEntry) : ColorEntry :=
  let ks := sortKfs (kfNodes.filterMap (fun p => animKeyframe p.1 p.2))
  { c with keyframes := some ks }

/-! ## Serializer (`exporter.js`) -/

/-- Record body written by `exportPalette` for one style:
`${trace}${c.id}${exportName} ${c.tagID} ${c.r} ${c.g} ${c.b} ${c.a}`
for studio palettes, and the same without the id for level palettes. -/
def exportStyleContent (isStudio : Bool) (c : ColorEntry) : Str :=
  (if c.hasTrace then '_' :: '1' :: ' ' :: [] else []) ++
  (if isStudio then c.id else []) ++
  getFullExportName c ++
  (' ' :: c.tagID) ++ (' ' :: intToStr c.r) ++ (' ' :: intToStr c.g) ++
  (' ' :: intToStr c.b) ++ (' ' :: intToStr c.a)

/-- JS truthiness of a possibly-absent string (`undefined`, `null` and
`''` are falsy). -/
def jsTruthyStr : Option Str → Bool
  | some s => !s.isEmpty
  | none => false

/-- Root tag written by `exportPalette`: the studio branch interpolates
`paletteData.prefix` (rendering the text `undefined` when the field is
absent, as the JS template literal does); the level branch falls back to
id `1` when `originalId` is falsy. -/
def exportRootTag (pd : PaletteMeta) : Str :=
  if pd.isStudioPalette then
    "<palette name=\"".data ++
      (match pd.prefix? with
       | some p => p
       | none => "undefined".data) ++ "\">".data
  else
    "<palette id=\"".data ++
      (match pd.originalId with
       | some i => if i.isEmpty then "1".data else i
       | none => "1".data) ++ "\">".data

/-- `CONFIG.DEFAULT_TPL_VER`. -/
def defaultTplVer : Str := "71 0".data

/-- Metadata object built by `parseTPL` from the root `<palette>` node's
attributes and the `<version>`/`<shortcuts>` texts (attributes are
`none` when absent; texts are the trimmed contents). Note: no `prefix`
field is ever set here. -/
def parseTPLMeta (nameAttr idAttr versionText shortcutsText : Option Str) :
    PaletteMeta :=
  { name :=
      if jsTruthyStr nameAttr then nameAttr.getD []
      else if jsTruthyStr idAttr then "level_palette_".data ++ idAttr.getD []
      else "new_palette".data,
    version := if jsTruthyStr versionText then versionText.getD [] else defaultTplVer,
    shortcuts := shortcutsText.getD [],
    isStudioPalette := jsTruthyStr nameAttr,
    originalId := idAttr,
    prefix? := none }

/-! ## Eyedropper (`applyPickedColor`) -/

/-- An opaque picked color. -/
structure RGB where
  r : Int
  g : Int
  b : Int
deriving DecidableEq, Repr

/-- In-place field update of the first keyframe at the given frame, as
mutating the object returned by `keyframes.find` does. -/
def updateFirstKf (f : Int) (upd : Keyframe → Keyframe) :
    List Keyframe → List Keyframe
  | [] => []
  | k :: l => if k.frame = f then upd k :: l else k :: updateFirstKf f upd l

/-- `applyPickedColor` acting on the target entry at the selected frame:
update the keyframe under the cursor (keeping its alpha), else push a
new keyframe with the interpolated alpha and re-sort, else (no
keyframes) write the base RGB. -/
def applyPickedColor (picked : RGB) (selFrame : Int) (c : ColorEntry) : ColorEntry :=
  match c.keyframes with
  | none => { c with r := picked.r, g := picked.g, b := picked.b }
  | some ks =>
    if ks.any (fun kf => kf.frame == selFrame) then
      let ks1 := updateFirstKf selFrame
        (fun k => { k with r := picked.r, g := picked.g, b := picked.b }) ks
      { c with keyframes := some ks1 }
    else if 0 < ks.length then
      let fc := getInterpolatedColor selFrame c
      let ks2 := sortKfs (ks ++ [⟨selFrame, picked.r, picked.g, picked.b, fc.a⟩])
      { c with keyframes := some ks2 }
    else { c with r := picked.r, g := picked.g, b := picked.b }

/-! ## Hex parsing (`HexaColorWheel` in the wheel library) -/

/-- Hexadecimal digit class of `[a-f\d]` with the `i` flag. -/
def isHexDigit (c : Char) : Bool :=
  isDigitChar c || ('a' ≤ c && c ≤ 'f') || ('A' ≤ c && c ≤ 'F')

/-- Value of one hexadecimal digit character. -/
def hexVal (c : Char) : Nat :=
  if isDigitChar c then charVal c
  else if 'a' ≤ c && c ≤ 'f' then c.toNat - 87
  else if 'A' ≤ c && c ≤ 'F' then c.toNat - 55
  else 0

/-- `hexToRgb` of the wheel library:
`/^#?([a-f\d]{2})([a-f\d]{2})([a-f\d]{2})$/i.exec(hex)`, returning
`null` (here `none`) when the string is not an optional `#` followed by
exactly six hex digits. -/
def stripHash : Str → Str
  | '#' :: t => t
  | s => s

def wheelHexToRgb (s : Str) : Option RGB :=
  match stripHash s with
  | [c1, c2, c3, c4, c5, c6] =>
    if isHexDigit c1 && isHexDigit c2 && isHexDigit c3 &&
       isHexDigit c4 && isHexDigit c5 && isHexDigit c6 then
      some ⟨(16 * hexVal c1 + hexVal c2 : Nat), (16 * hexVal c3 + hexVal c4 : Nat),
            (16 * hexVal c5 + hexVal c6 : Nat)⟩
    else none
  | _ => none

/-! ## UI operations (`ui.js`) -/

/-- The numeric short ids of the current colors:
`colors.map(c => parseInt(getShortId(c.id))).filter(n => !isNaN(n))`. -/
def numericShortIds (cs : List ColorEntry) : List Int :=
  cs.filterMap (fun c => jsParseInt (getShortId c.id))

/-- `addColor`'s next id: `(ids.length ? Math.max(...ids) : 0) + 1`
(`max?` is `none` exactly on the empty list). -/
def nextShortId (cs : List ColorEntry) : Int :=
  ((numericShortIds cs).max?.getD 0) + 1

/-- `addColor`'s id stem when `paletteData?.prefix` is falsy:
`firstId.includes('-') ? firstId.split('-')[0].replace(/"/g,'') + '-' : ''`. -/
def fallbackStem (st : AppState) : Str :=
  let firstId := (st.colors.head?.map ColorEntry.id).getD []
  if firstId.contains '-' then
    (firstId.takeWhile (fun c => c ≠ '-')).filter (fun c => c ≠ '"') ++ ['-']
  else []

/-- `addColor`'s id stem: `'|-' + paletteData.prefix + '-'` when the
`prefix` field is truthy, else the fallback from the first color's id. -/
def addColorStem (st : AppState) : Str :=
  match st.paletteData with
  | some pd =>
    match pd.prefix? with
    | some p => if p.isEmpty then fallbackStem st else '|' :: '-' :: (p ++ ['-'])
    | none => fallbackStem st
  | none => fallbackStem st

/-- `addColor` of `ui.js` (with the trailing `selectColor` call):
appends one entry and selects it. `none` models the `TypeError` raised
when `selectedColorIndex` is a stale out-of-range index. -/
def uiAddColor (st : AppState) : Option AppState :=
  let nextId := nextShortId st.colors
  let stem := addColorStem st
  let base? : Option RGBA :=
    if 0 ≤ st.selectedColorIndex then
      match st.colors.get? st.selectedColorIndex.toNat with
      | none => none
      | some sc => some (getInterpolatedColor 0 sc)
    else some ⟨120, 120, 120, 255⟩
  match base? with
  | none => none
  | some rgba =>
    let newIdx := st.colors.length
    let e : ColorEntry :=
      { hasTrace := false, id := '"' :: (stem ++ intToStr nextId) ++ ['"'],
        name := "new_color".data, tagID := "3".data,
        r := rgba.r, g := rgba.g, b := rgba.b, a := rgba.a,
        role := .none, originalIndex := newIdx, keyframes := some [] }
    some { st with colors := st.colors ++ [e],
                   selectedColorIndex := (newIdx : Int),
                   selectedFrame := 0, endFrame := 100 }

/-- Default shortcuts string seeded by `newPalette`. -/
def defaultShortcuts : Str := "0 1 -1 -1 -1 -1 -1 -1 -1 -1 ".data

/-- The `bg` seed entry of `newPalette`. Note the object literal carries
no `keyframes` field. -/
def newPaletteBg (pfx : Str) : ColorEntry :=
  { hasTrace := false, id := '"' :: '|' :: '-' :: (pfx ++ ('-' :: '0' :: ['"'])),
    name := "bg".data, tagID := "3".data, r := 255, g := 255, b := 255, a := 0,
    role := .none, originalIndex := 0, keyframes := none }

/-- The `ink` seed entry of `newPalette` (no `keyframes` field either). -/
def newPaletteInk (pfx : Str) : ColorEntry :=
  { hasTrace := false, id := '"' :: '|' :: '-' :: (pfx ++ ('-' :: '1' :: ['"'])),
    name := "ink".data, tagID := "3".data, r := 0, g := 0, b := 0, a := 255,
    role := .none, originalIndex := 1, keyframes := none }

/-- `newPalette` of `ui.js` with the prompted name and the generated
prefix: seeds the metadata (including the `prefix` field) and exactly
two entries. -/
def newPaletteState (nm : Str) (pfx : Str) : AppState :=
  { paletteData := some
      { name := nm, version := defaultTplVer, shortcuts := defaultShortcuts,
        isStudioPalette := true, originalId := none, prefix? := some pfx },
    colors := [newPaletteBg pfx, newPaletteInk pfx],
    selectedColorIndex := -1, selectedFrame := 0, endFrame := 100 }

/-! ## Specification-side interpolation (transcribed from the
specification's wording, to compare with `getInterpolatedColor`) -/

/-- The keyframe of greatest frame in a list (spec wording "the keyframe
of greatest frame ≤ query" applied to the filtered list). -/
def maxByFrame? : List Keyframe → Option Keyframe
  | [] => none
  | k :: l =>
    match maxByFrame? l with
    | none => some k
    | some m => if k.frame < m.frame then some m else some k

/-- The keyframe of least frame in a list. -/
def minByFrame? : List Keyframe → Option Keyframe
  | [] => none
  | k :: l =>
    match minByFrame? l with
    | none => some k
    | some m => if m.frame < k.frame then some m else some k

/-- Rounding as the specification writes it: `round(x)` with JS
semantics `floor(x + 1/2)`. -/
def specRound (q : ℚ) : Int := ⌊q + 1 / 2⌋

/-- One channel as the specification writes it:
`round(prevC + (nextC - prevC) * (frame - prev.frame) / (next.frame - prev.frame))`. -/
def specChannel (pC nC pf nf f : Int) : Int :=
  specRound ((pC : ℚ) + ((nC : ℚ) - (pC : ℚ)) * (((f : ℚ) - (pf : ℚ)) / ((nf : ℚ) - (pf : ℚ))))

/-- Interpolation exactly as claim C2 states it: empty track returns the
static base; a query at or before the first keyframe (or at or after the
last) returns that keyframe's color exactly; otherwise `prev` is the
keyframe of greatest frame ≤ query, `next` the keyframe of least
frame ≥ query, equal frames return that keyframe's color exactly (no
division by zero), and else each channel is linearly interpolated and
rounded. -/
def interpSpec (f : Int) (base : RGBA) (ks : List Keyframe) : RGBA :=
  match ks, ks.getLast? with
  | [], _ => base
  | _ :: _, none => base
  | k0 :: _, some kl =>
    if f ≤ k0.frame then kfRGBA k0
    else if kl.frame ≤ f then kfRGBA kl
    else
      match maxByFrame? (ks.filter (fun k => k.frame ≤ f)),
            minByFrame? (ks.filter (fun k => f ≤ k.frame)) with
      | some p, some n =>
        if p.frame = n.frame then kfRGBA p
        else ⟨specChannel p.r n.r p.frame n.frame f,
              specChannel p.g n.g p.frame n.frame f,
              specChannel p.b n.b p.frame n.frame f,
              specChannel p.a n.a p.frame n.frame f⟩
      | _, _ => base

/-- Whether a record body matches its dialect's regex (the success
condition of one `parseStyles` iteration; independent of the document
index). -/
def recordMatches (isStudioPalette : Bool) (content : Str) : Bool :=
  if isStudioPalette then (studioMatch content).isSome else (levelMatch content).isSome

/-- A canonical studio record body: the token sequence
`[trace-marker ]id[name] tagID r g b a` of the fixed studio grammar
with single-space separation and canonical decimal numerals — exactly
the form the serializer emits. -/
def studioBody (tr : Bool) (idc rawName : Str) (t r g b a : Nat) : Str :=
  (if tr then '_' :: '1' :: ' ' :: [] else []) ++ ('"' :: idc ++ ['"']) ++ rawName ++
  (' ' :: natDigits t) ++ (' ' :: natDigits r) ++ (' ' :: natDigits g) ++
  (' ' :: natDigits b) ++ (' ' :: natDigits a)

/-- The ColorEntry that `parseStyleRecord` builds from a studio match
with the given captured groups. -/
def parsedStudioEntry (tr : Bool) (idc rawName : Str) (t r g b a : Nat) (i : Nat) :
    ColorEntry :=
  { hasTrace := tr, id := '"' :: idc ++ ['"'],
    name := (decodeRoleName rawName).1, tagID := natDigits t,
    r := (r : Int), g := (g : Int), b := (b : Int), a := (a : Int),
    role := (decodeRoleName rawName).2, originalIndex := i,
    keyframes := some [] }

/-! ## Concrete instances used by the scenario claims -/

/-- The first studio style body of the parse-then-export scenario. -/
def styleBodyGood : Str := "\"p-0\"bg 3 255 255 255 0".data

/-- The second studio style body of the scenario. -/
def styleBodyInk : Str := "\"p-1\"ink 3 0 0 0 255".data

/-- A studio style body missing one channel (malformed). -/
def styleBodyBad : Str := "\"p-1\"ink 3 0 0 0".data

/-- A color entry with a single keyframe at frame 5 whose color differs
from the base color. -/
def exToggleEntry : ColorEntry :=
  { hasTrace := false, id := "\"p-2\"".data, name := "fx".data,
    tagID := "3".data, r := 0, g := 0, b := 0, a := 0, role := .none,
    originalIndex := 2, keyframes := some [⟨5, 200, 10, 20, 255⟩] }

/-- The two-keyframe track of the specification's interpolation
boundary example. -/
def exInterpKs : List Keyframe := [⟨0, 0, 0, 0, 255⟩, ⟨10, 100, 0, 100, 255⟩]

/-- An animated color entry carrying `exInterpKs`. -/
def exInterpEntry : ColorEntry :=
  { hasTrace := false, id := "\"p-3\"".data, name := "anim".data,
    tagID := "3".data, r := 1, g := 2, b := 3, a := 4, role := .none,
    originalIndex := 3, keyframes := some exInterpKs }

/-- A well-formed six-token keyframe body, as split on whitespace. -/
def exAnimTokens : List Str :=
  ["x".data, "3".data, "1".data, "2".data, "3".data, "4".data]

/-- A plain static entry used as an animation target. -/
def exAnimEntry : ColorEntry :=
  { hasTrace := false, id := "\"p-4\"".data, name := "t".data,
    tagID := "3".data, r := 9, g := 9, b := 9, a := 255, role := .none,
    originalIndex := 4, keyframes := some [] }

/-- A small state with one parsed color and a palette prefix, used to
exercise `addColor`. -/
def exAddState : AppState :=
  { paletteData := some
      { name := "n".data, version := defaultTplVer, shortcuts := [],
        isStudioPalette := true, originalId := none, prefix? := some "q".data },
    colors := [{ hasTrace := false, id := "\"p-3\"".data, name := "bg".data,
                 tagID := "3".data, r := 7, g := 8, b := 9, a := 10,
                 role := .none, originalIndex := 0, keyframes := some [] }],
    selectedColorIndex := -1, selectedFrame := 0, endFrame := 100 }

/-! ## Character and numeral lemmas -/

theorem digitChar_spec (d : Nat) (h : d < 10) :
    isDigitChar (digitChar d) = true ∧ charVal (digitChar d) = d ∧
    isSpaceChar (digitChar d) = false ∧ digitChar d ≠ '"' ∧
    digitChar d ≠ '-' ∧ digitChar d ≠ '+' := by
  interval_cases d <;> exact ⟨rfl, rfl, rfl, by decide, by decide, by decide⟩

theorem isDigitChar_not_space {c : Char} (h : isDigitChar c = true) :
    isSpaceChar c = false := by
  simp only [isDigitChar, Bool.and_eq_true, decide_eq_true_eq] at h
  simp only [isSpaceChar, Bool.or_eq_false_iff, decide_eq_false_iff_not]
  refine ⟨⟨⟨⟨⟨?_, ?_⟩, ?_⟩, ?_⟩, ?_⟩, ?_⟩ <;>
    rintro rfl <;> revert h <;> decide

theorem isDigitChar_ne_quote {c : Char} (h : isDigitChar c = true) : c ≠ '"' := by
  rintro rfl; revert h; decide

theorem isDigitChar_ne_dash {c : Char} (h : isDigitChar c = true) : c ≠ '-' := by
  rintro rfl; revert h; decide

theorem isDigitChar_ne_plus {c : Char} (h : isDigitChar c = true) : c ≠ '+' := by
  rintro rfl; revert h; decide

theorem natDigitsAux_irrel :
    ∀ (f1 n : Nat), n < f1 → ∀ f2, n < f2 → natDigitsAux f1 n = natDigitsAux f2 n
  | 0, n, h1, _, _ => absurd h1 (by omega)
  | f1 + 1, n, h1, f2, h2 => by
    cases f2 with
    | zero => omega
    | succ f2 =>
      rw [natDigitsAux, natDigitsAux]
      split
      next => rfl
      next h =>
        congr 1
        exact natDigitsAux_irrel f1 (n / 10) (by omega) f2 (by omega)

theorem natDigits_unfold (n : Nat) :
    natDigits n = if n < 10 then [digitChar n]
      else natDigits (n / 10) ++ [digitChar (n % 10)] := by
  rw [natDigits, natDigitsAux]
  split
  next => rfl
  next h =>
    congr 1
    exact natDigitsAux_irrel n (n / 10) (by omega) (n / 10 + 1) (by omega)

theorem natDigits_ne_nil (n : Nat) : natDigits n ≠ [] := by
  rw [natDigits_unfold]
  split <;> simp

theorem natDigits_digits (n : Nat) : ∀ c ∈ natDigits n, isDigitChar c = true := by
  induction n using Nat.strong_induction_on with
  | _ n ih =>
    rw [natDigits_unfold]
    split
    next h =>
      intro c hc
      simp only [List.mem_singleton] at hc
      subst hc
      exact (digitChar_spec n h).1
    next h =>
      intro c hc
      rcases List.mem_append.1 hc with h1 | h2
      · exact ih (n / 10) (Nat.div_lt_self (by omega) (by omega)) c h1
      · simp only [List.mem_singleton] at h2
        subst h2
        exact (digitChar_spec (n % 10) (Nat.mod_lt _ (by omega))).1

theorem digitsToNat_foldl (n : Nat) :
    ∀ acc : Nat,
      List.foldl (fun acc c => acc * 10 + charVal c) acc (natDigits n) =
        acc * 10 ^ (natDigits n).length + n := by
  induction n using Nat.strong_induction_on with
  | _ n ih =>
    intro acc
    rw [natDigits_unfold]
    split
    next h => simp [List.foldl, (digitChar_spec n h).2.1]
    next h =>
      rw [List.foldl_append, ih (n / 10) (Nat.div_lt_self (by omega) (by omega)),
        List.length_append]
      simp only [List.foldl, List.length_singleton,
        (digitChar_spec (n % 10) (Nat.mod_lt _ (by omega))).2.1]
      rw [pow_add, pow_one]
      have : 10 * (n / 10) + n % 10 = n := Nat.div_add_mod n 10
      ring_nf
      omega

theorem digitsToNat_natDigits (n : Nat) : digitsToNat (natDigits n) = n := by
  have := digitsToNat_foldl n 0
  simpa [digitsToNat] using this

/-- Splitting a list at a known boundary: a prefix all of whose elements
satisfy `p`, followed by a remainder whose head (if any) does not. -/
theorem takeWhile_dropWhile_append {p : Char → Bool} :
    ∀ (xs ys : Str), (∀ x ∈ xs, p x = true) →
      (∀ y, ys.head? = some y → p y = false) →
      (xs ++ ys).takeWhile p = xs ∧ (xs ++ ys).dropWhile p = ys
  | [], ys, _, hy => by
    cases ys with
    | nil => simp
    | cons y t =>
      have := hy y rfl
      simp [List.takeWhile_cons, List.dropWhile_cons, this]
  | x :: xs, ys, hx, hy => by
    have hpx : p x = true := hx x (List.mem_cons_self x xs)
    have ih := takeWhile_dropWhile_append xs ys (fun a ha => hx a (List.mem_cons_of_mem _ ha)) hy
    simp [List.takeWhile_cons, List.dropWhile_cons, hpx, ih.1, ih.2]

theorem takeWhile_all {p : Char → Bool} (xs : Str) (hx : ∀ x ∈ xs, p x = true) :
    xs.takeWhile p = xs ∧ xs.dropWhile p = [] := by
  have := takeWhile_dropWhile_append (p := p) xs [] hx (by intro y hy; simp at hy)
  simpa using this

/-! ## Rounding bridge -/

theorem roundHalfUp_pos (num den : Int) (h : 0 < den) :
    (2 * num + den) / (2 * den) = ⌊(num : ℚ) / (den : ℚ) + 1 / 2⌋ := by
  have hd : ((2 * den).toNat : Int) = 2 * den := Int.toNat_of_nonneg (by omega)
  have hq : (num : ℚ) / (den : ℚ) + 1 / 2 =
      ((2 * num + den : Int) : ℚ) / (((2 * den).toNat : Nat) : ℚ) := by
    have hden : ((den : ℚ)) ≠ 0 := by
      exact_mod_cast (by omega : den ≠ 0)
    have : (((2 * den).toNat : Nat) : ℚ) = ((2 * den : Int) : ℚ) := by
      exact_mod_cast congrArg (fun z : Int => (z : ℚ)) hd
    rw [this]
    push_cast
    field_simp
    ring
  rw [hq, Rat.floor_intCast_div_natCast, hd]

theorem roundHalfUp_eq (num den : Int) (h : den ≠ 0) :
    roundHalfUp num den = ⌊(num : ℚ) / (den : ℚ) + 1 / 2⌋ := by
  unfold roundHalfUp
  split
  next hneg =>
    rw [roundHalfUp_pos (-num) (-den) (by omega)]
    have h1 : ((-num : Int) : ℚ) / ((-den : Int) : ℚ) = (num : ℚ) / (den : ℚ) := by
      push_cast
      rw [neg_div_neg_eq]
    rw [h1]
  next hpos =>
    exact roundHalfUp_pos num den (by omega)

theorem interpChannel_eq_specChannel (pC nC pf nf f : Int) (h : nf - pf ≠ 0) :
    interpChannel pC nC pf nf f = specChannel pC nC pf nf f := by
  unfold interpChannel specChannel specRound
  rw [roundHalfUp_eq _ _ h]
  congr 1
  have hq : ((nf : ℚ) - (pf : ℚ)) ≠ 0 := by
    intro hc
    apply h
    have : ((nf - pf : Int) : ℚ) = 0 := by push_cast; linarith
    exact_mod_cast this
  push_cast
  field_simp

/-! ## Generic list lemmas -/

theorem find?_eq_head?_filter {α : Type} (p : α → Bool) :
    ∀ l : List α, l.find? p = (l.filter p).head?
  | [] => rfl
  | a :: l => by
    cases h : p a with
    | true => simp [List.find?_cons, List.filter_cons, h]
    | false =>
      rw [List.find?_cons, List.filter_cons, h]
      simpa using find?_eq_head?_filter p l

theorem find?_append_singleton {α : Type} (p : α → Bool) (x : α) :
    ∀ l : List α, (∀ y ∈ l, p y = false) →
      (l ++ [x]).find? p = if p x then some x else none
  | [], _ => by
    rcases h : p x with _ | _ <;> simp [List.find?_cons, h]
  | a :: l, h => by
    have ha := h a (List.mem_cons_self a l)
    simp only [List.cons_append, List.find?_cons, ha]
    exact find?_append_singleton p x l (fun y hy => h y (List.mem_cons_of_mem _ hy))

theorem getLast?_cons_of_ne_nil {α : Type} (a : α) {l : List α} (h : l ≠ []) :
    (a :: l).getLast? = l.getLast? := by
  cases l with
  | nil => exact absurd rfl h
  | cons b t => simp [List.getLast?_cons_cons]

/-- The last element of the ≤-filtered part of a strictly ascending
list is its greatest element at most the bound. -/
theorem filter_le_getLast? (f : Int) :
    ∀ (ks : List Keyframe), List.Pairwise (fun x y => x.frame < y.frame) ks →
      ∀ p ∈ ks, p.frame ≤ f → (∀ k ∈ ks, k.frame ≤ f → k.frame ≤ p.frame) →
        (ks.filter (fun k => k.frame ≤ f)).getLast? = some p := by
  intro ks
  induction ks with
  | nil => intro _ p hp; exact absurd hp (List.not_mem_nil p)
  | cons a l ih =>
    intro hpw p hp hpf hmax
    have hal : ∀ x ∈ l, a.frame < x.frame := fun x hx => (List.pairwise_cons.1 hpw).1 x hx
    have hlp : List.Pairwise (fun x y => x.frame < y.frame) l := (List.pairwise_cons.1 hpw).2
    rcases List.mem_cons.1 hp with rfl | hpl
    · have hfl : l.filter (fun k => k.frame ≤ f) = [] := by
        rw [List.filter_eq_nil_iff]
        intro k hk
        have h1 : p.frame < k.frame := hal k hk
        have h2 : k.frame ≤ f → k.frame ≤ p.frame := hmax k (List.mem_cons_of_mem _ hk)
        simp only [decide_eq_true_eq]
        omega
      simp [List.filter_cons, hpf, hfl]
    · have hap : a.frame < p.frame := hal p hpl
      have haf : a.frame ≤ f := le_trans (le_of_lt hap) hpf
      have ihr := ih hlp p hpl hpf (fun k hk => hmax k (List.mem_cons_of_mem _ hk))
      have hne : l.filter (fun k => k.frame ≤ f) ≠ [] := by
        intro hnil
        rw [hnil] at ihr
        exact Option.noConfusion ihr
      have hdec : (decide (a.frame ≤ f)) = true := by simp [haf]
      rw [List.filter_cons]
      simp only [hdec, if_true]
      rw [getLast?_cons_of_ne_nil _ hne]
      exact ihr

/-- The first element satisfying ≥-the-bound in a strictly ascending
list is its least element at least the bound. -/
theorem find?_ge_eq (f : Int) :
    ∀ (ks : List Keyframe), List.Pairwise (fun x y => x.frame < y.frame) ks →
      ∀ n ∈ ks, f ≤ n.frame → (∀ k ∈ ks, f ≤ k.frame → n.frame ≤ k.frame) →
        ks.find? (fun k => f ≤ k.frame) = some n := by
  intro ks
  induction ks with
  | nil => intro _ n hn; exact absurd hn (List.not_mem_nil n)
  | cons a l ih =>
    intro hpw n hn hnf hmin
    have hal : ∀ x ∈ l, a.frame < x.frame := fun x hx => (List.pairwise_cons.1 hpw).1 x hx
    have hlp : List.Pairwise (fun x y => x.frame < y.frame) l := (List.pairwise_cons.1 hpw).2
    rcases List.mem_cons.1 hn with rfl | hnl
    · simp [List.find?_cons, hnf]
    · have han : a.frame < n.frame := hal n hnl
      have haf : f ≤ a.frame → n.frame ≤ a.frame := hmin a (List.mem_cons_self a l)
      have hafalse : (f ≤ a.frame) = False := by
        by_contra hc
        simp only [eq_iff_iff, iff_false, not_le] at hc
        push_neg at hc
        have := haf hc
        omega
      simp only [List.find?_cons]
      have : (decide (f ≤ a.frame)) = false := by simp [hafalse]
      simp only [this]
      exact ih hlp n hnl hnf (fun k hk => hmin k (List.mem_cons_of_mem _ hk))

/-! ## Sorting lemmas -/

theorem orderedInsert_all_ge (k : Keyframe) :
    ∀ l : List Keyframe, (∀ x ∈ l, kfLE k x) →
      List.orderedInsert kfLE k l = k :: l
  | [], _ => rfl
  | b :: l, h => by
    rw [List.orderedInsert, if_pos (h b (List.mem_cons_self b l))]

/-- Inserting one element with a fresh frame into an already sorted
list: the stable sort of `ks ++ [k]` is the ordered insertion of `k`. -/
theorem insertionSort_append_singleton (k : Keyframe) :
    ∀ ks : List Keyframe, List.Pairwise (fun a b => a.frame < b.frame) ks →
      (∀ x ∈ ks, x.frame ≠ k.frame) →
      List.insertionSort kfLE (ks ++ [k]) = List.orderedInsert kfLE k ks
  | [], _, _ => rfl
  | a :: l, hpw, hne => by
    have hal : ∀ x ∈ l, a.frame < x.frame := fun x hx => (List.pairwise_cons.1 hpw).1 x hx
    have hlp : List.Pairwise (fun x y => x.frame < y.frame) l := (List.pairwise_cons.1 hpw).2
    have ih := insertionSort_append_singleton k l hlp
      (fun x hx => hne x (List.mem_cons_of_mem _ hx))
    have hak : a.frame ≠ k.frame := hne a (List.mem_cons_self a l)
    rw [List.cons_append, List.insertionSort, ih]
    by_cases hka : kfLE k a
    · have hklt : k.frame < a.frame := lt_of_le_of_ne hka (fun hc => hak hc.symm)
      have hkl : ∀ x ∈ l, kfLE k x := fun x hx => le_of_lt (lt_trans hklt (hal x hx))
      have hnak : ¬ kfLE a k := by simp only [kfLE, not_le]; exact hklt
      calc List.orderedInsert kfLE a (List.orderedInsert kfLE k l)
          = List.orderedInsert kfLE a (k :: l) := by rw [orderedInsert_all_ge k l hkl]
        _ = k :: List.orderedInsert kfLE a l := by rw [List.orderedInsert, if_neg hnak]
        _ = k :: a :: l := by rw [orderedInsert_all_ge a l (fun x hx => le_of_lt (hal x hx))]
        _ = List.orderedInsert kfLE k (a :: l) := by rw [List.orderedInsert, if_pos hka]
    · have halt : a.frame < k.frame := by
        simp only [kfLE, not_le] at hka
        exact hka
      have hrhs : List.orderedInsert kfLE k (a :: l) = a :: List.orderedInsert kfLE k l := by
        rw [List.orderedInsert, if_neg hka]
      rw [hrhs]
      cases l with
      | nil =>
        show List.orderedInsert kfLE a [k] = a :: [k]
        have h2 : kfLE a k := le_of_lt halt
        rw [List.orderedInsert, if_pos h2]
      | cons b l2 =>
        have hab : kfLE a b := le_of_lt (hal b (List.mem_cons_self b l2))
        by_cases hkb : kfLE k b
        · have h1 : List.orderedInsert kfLE k (b :: l2) = k :: b :: l2 := by
            rw [List.orderedInsert, if_pos hkb]
          rw [h1]
          have h2 : kfLE a k := le_of_lt halt
          rw [List.orderedInsert, if_pos h2]
        · have h1 : List.orderedInsert kfLE k (b :: l2) =
              b :: List.orderedInsert kfLE k l2 := by
            rw [List.orderedInsert, if_neg hkb]
          rw [h1]
          rw [List.orderedInsert, if_pos hab]

theorem eraseP_orderedInsert (k : Keyframe) :
    ∀ ks : List Keyframe, (∀ x ∈ ks, x.frame ≠ k.frame) →
      (List.orderedInsert kfLE k ks).eraseP (fun x => x.frame == k.frame) = ks
  | [], _ => by simp [List.orderedInsert, List.eraseP_cons]
  | b :: l, h => by
    have hb : b.frame ≠ k.frame := h b (List.mem_cons_self b l)
    rw [List.orderedInsert]
    by_cases hkb : kfLE k b
    · rw [if_pos hkb, List.eraseP_cons]
      simp
    · rw [if_neg hkb, List.eraseP_cons]
      have hbf : (b.frame == k.frame) = false := by simp [hb]
      simp only [hbf, cond_false]
      congr 1
      exact eraseP_orderedInsert k l (fun x hx => h x (List.mem_cons_of_mem _ hx))

theorem mem_orderedInsert_self (k : Keyframe) (ks : List Keyframe) :
    k ∈ List.orderedInsert kfLE k ks :=
  (List.mem_orderedInsert kfLE).2 (Or.inl rfl)

/-- Ascending-by-≤ plus pairwise-distinct frames gives the strict
invariant. -/
theorem strict_of_sorted_nodup {l : List Keyframe}
    (h1 : List.Pairwise kfLE l)
    (h2 : List.Pairwise (fun a b : Keyframe => a.frame ≠ b.frame) l) :
    StrictByFrame l := by
  unfold StrictByFrame
  rw [List.pairwise_map]
  exact (h1.and h2).imp (fun h => lt_of_le_of_ne h.1 h.2)

theorem strictByFrame_iff (l : List Keyframe) :
    StrictByFrame l ↔ List.Pairwise (fun a b => a.frame < b.frame) l := by
  unfold StrictByFrame
  exact List.pairwise_map

/-- Appending a fresh-frame keyframe and re-sorting preserves the
strict invariant. -/
theorem strict_sortKfs_append (ks : List Keyframe) (k : Keyframe)
    (hs : StrictByFrame ks) (hf : ∀ x ∈ ks, x.frame ≠ k.frame) :
    StrictByFrame (sortKfs (ks ++ [k])) := by
  have hsorted : List.Pairwise kfLE (sortKfs (ks ++ [k])) :=
    List.sorted_insertionSort kfLE (ks ++ [k])
  have hperm : (sortKfs (ks ++ [k])).Perm (ks ++ [k]) :=
    List.perm_insertionSort kfLE (ks ++ [k])
  have hne : List.Pairwise (fun a b : Keyframe => a.frame ≠ b.frame) (ks ++ [k]) := by
    rw [List.pairwise_append]
    refine ⟨((strictByFrame_iff ks).1 hs).imp (fun h => ne_of_lt h), List.pairwise_singleton _ _, ?_⟩
    intro x hx y hy
    simp only [List.mem_singleton] at hy
    subst hy
    exact hf x hx
  have hne2 : List.Pairwise (fun a b : Keyframe => a.frame ≠ b.frame) (sortKfs (ks ++ [k])) :=
    (List.Perm.pairwise_iff (fun h => h.symm) hperm).2 hne
  exact strict_of_sorted_nodup hsorted hne2

/-! ## Claim C9: studio export root tag -/

/-- Claim C9: when `isStudioPalette` is true, `exportPalette` writes the
root tag's name attribute from the metadata field `prefix`, not from the
stored palette `name`; `parseTPL` never sets a `prefix` field, so every
document created by loading a studio TPL file exports the root tag
`<palette name="undefined">`. -/
theorem studio_export_root_undefined
    (nameAttr idAttr versionText shortcutsText : Option Str)
    (h : jsTruthyStr nameAttr = true) :
    (parseTPLMeta nameAttr idAttr versionText shortcutsText).prefix? = none ∧
    (parseTPLMeta nameAttr idAttr versionText shortcutsText).isStudioPalette = true ∧
    exportRootTag (parseTPLMeta nameAttr idAttr versionText shortcutsText) =
      "<palette name=\"undefined\">".data := by
  refine ⟨rfl, h, ?_⟩
  have hstudio : (parseTPLMeta nameAttr idAttr versionText shortcutsText).isStudioPalette
      = true := h
  rw [exportRootTag, if_pos hstudio]
  rfl

/-- Witness for C9 at a concrete studio palette attribute set. -/
theorem studio_export_root_undefined_witness :
    (parseTPLMeta (some "MyPalette".data) none none none).prefix? = none ∧
    (parseTPLMeta (some "MyPalette".data) none none none).isStudioPalette = true ∧
    exportRootTag (parseTPLMeta (some "MyPalette".data) none none none) =
      "<palette name=\"undefined\">".data :=
  studio_export_root_undefined (some "MyPalette".data) none none none (by decide)

/-! ## Claim C10: `newPalette` seed entries have no keyframes field -/

/-- Claim C10: `toggleKeyframe` requires the entry's `keyframes` field
to be an array; the two seed entries created by `newPalette` carry no
`keyframes` field at all, so invoking `toggleKeyframe` on either of
them dereferences `undefined` (modelled as `none`) — the error branch
is reachable at the public interface. -/
theorem newPalette_entries_toggle_crash (nm pfx : Str) (f : Int) :
    ∀ e ∈ (newPaletteState nm pfx).colors,
      e.keyframes = none ∧ toggleKeyframe f e = none := by
  intro e he
  simp only [newPaletteState, List.mem_cons, List.not_mem_nil, or_false] at he
  rcases he with rfl | rfl
  · exact ⟨rfl, rfl⟩
  · exact ⟨rfl, rfl⟩

/-- Witness for C10 on the `bg` entry of a concrete new palette. -/
theorem newPalette_entries_toggle_crash_witness :
    (newPaletteBg "q".data).keyframes = none ∧
    toggleKeyframe 0 (newPaletteBg "q".data) = none :=
  newPalette_entries_toggle_crash "n".data "q".data 0 (newPaletteBg "q".data)
    (List.mem_cons_self _ _)

/-! ## Claim C5: role suffix round trip -/

theorem suffix_eq_of_same_length {s1 s2 t : Str} (h1 : s1 <:+ t) (h2 : s2 <:+ t)
    (hl : s1.length = s2.length) : s1 = s2 := by
  obtain ⟨u1, hu1⟩ := h1
  obtain ⟨u2, hu2⟩ := h2
  have h := hu1.trans hu2.symm
  have hlu : u1.length = u2.length := by
    have := congrArg List.length h
    simp only [List.length_append] at this
    omega
  exact List.append_inj_right h hlu

theorem not_suffix_of_append_distinct {base s s2 : Str} (hlen : s.length = s2.length)
    (hne : s ≠ s2) : ¬ (s.isSuffixOf (base ++ s2) = true) := by
  intro hc
  rw [List.isSuffixOf_iff_suffix] at hc
  exact hne (suffix_eq_of_same_length hc (List.suffix_append base s2) hlen)

theorem take_sub_append (u s : Str) (n : Nat) (h : s.length = n) :
    (u ++ s).take ((u ++ s).length - n) = u := by
  subst h
  have hl : (u ++ s).length - s.length = u.length := by
    simp only [List.length_append]
    omega
  rw [hl]
  exact List.take_left u s

/-- Claim C5: for every role R with suffix S (`none ↦ ""`,
`shadow ↦ "_sh"`, `highlight ↦ "_hl"`, `ao ↦ "_ao"`) and every base name
that does not end in any role suffix, the parse-time decode of the raw
name `baseName + S` yields `(baseName, R)`, and the export-time encode
of an entry named `baseName` with role R yields `baseName + S`; decode
and encode are mutually inverse under that precondition. -/
theorem role_suffix_roundtrip (base : Str)
    (hb : ∀ r : Role, roleSuffix r ≠ [] → ¬ ((roleSuffix r).isSuffixOf base = true)) :
    ∀ R : Role,
      decodeRoleName (base ++ roleSuffix R) = (base, R) ∧
      (∀ e : ColorEntry, e.name = base → e.role = R →
        getFullExportName e = base ++ roleSuffix R) := by
  have hsh := Bool.eq_false_iff.2 (hb .shadow (by decide))
  have hhl := Bool.eq_false_iff.2 (hb .highlight (by decide))
  have hao := Bool.eq_false_iff.2 (hb .ao (by decide))
  simp only [roleSuffix] at hsh hhl hao
  intro R
  refine ⟨?_, fun e hn hr => by rw [getFullExportName, hn, hr]⟩
  cases R with
  | none =>
    simp only [roleSuffix, List.append_nil]
    simp [decodeRoleName, rolesList, List.find?, roleSuffix, hsh, hhl, hao]
  | shadow =>
    have h1 : List.isSuffixOf ['_', 's', 'h'] (base ++ ['_', 's', 'h']) = true :=
      List.isSuffixOf_iff_suffix.2 (List.suffix_append base _)
    simp only [decodeRoleName, rolesList, List.find?, roleSuffix, List.isEmpty_nil,
      List.isEmpty_cons, Bool.not_true, Bool.not_false, Bool.false_and, Bool.true_and, h1]
    rw [take_sub_append base ['_', 's', 'h'] _ rfl]
  | highlight =>
    have h1 : List.isSuffixOf ['_', 's', 'h'] (base ++ ['_', 'h', 'l']) = false :=
      Bool.eq_false_iff.2 (not_suffix_of_append_distinct rfl (by decide))
    have h2 : List.isSuffixOf ['_', 'h', 'l'] (base ++ ['_', 'h', 'l']) = true :=
      List.isSuffixOf_iff_suffix.2 (List.suffix_append base _)
    simp only [decodeRoleName, rolesList, List.find?, roleSuffix, List.isEmpty_nil,
      List.isEmpty_cons, Bool.not_true, Bool.not_false, Bool.false_and, Bool.true_and, h1, h2]
    rw [take_sub_append base ['_', 'h', 'l'] _ rfl]
  | ao =>
    have h1 : List.isSuffixOf ['_', 's', 'h'] (base ++ ['_', 'a', 'o']) = false :=
      Bool.eq_false_iff.2 (not_suffix_of_append_distinct rfl (by decide))
    have h2 : List.isSuffixOf ['_', 'h', 'l'] (base ++ ['_', 'a', 'o']) = false :=
      Bool.eq_false_iff.2 (not_suffix_of_append_distinct rfl (by decide))
    have h3 : List.isSuffixOf ['_', 'a', 'o'] (base ++ ['_', 'a', 'o']) = true :=
      List.isSuffixOf_iff_suffix.2 (List.suffix_append base _)
    simp only [decodeRoleName, rolesList, List.find?, roleSuffix, List.isEmpty_nil,
      List.isEmpty_cons, Bool.not_true, Bool.not_false, Bool.false_and, Bool.true_and,
      h1, h2, h3]
    rw [take_sub_append base ['_', 'a', 'o'] _ rfl]

/-- Witness for C5 at the base name `bg`. -/
theorem role_suffix_roundtrip_witness :
    decodeRoleName ("bg".data ++ roleSuffix Role.shadow) = ("bg".data, Role.shadow) ∧
    (∀ e : ColorEntry, e.name = "bg".data → e.role = Role.shadow →
      getFullExportName e = "bg".data ++ roleSuffix Role.shadow) :=
  role_suffix_roundtrip "bg".data (by intro r; cases r <;> decide) Role.shadow

/-! ## Claim C8: hex-string parser grammar -/

/-- Claim C8: the wheel library's hex parser accepts exactly strings of
6 hexadecimal digits, with or without a leading `#`, case-insensitively
(the `[a-f\d]` class under the `i` flag), returning the corresponding
`{r, g, b}`; for every malformed input it returns `null` (here `none`)
— a failure signal rather than a thrown error — so the `hex` setter can
leave the prior color unchanged. -/
theorem stripHash_cons_ne (a : Char) (t : Str) (h : a ≠ '#') :
    stripHash (a :: t) = a :: t := by
  rw [stripHash.eq_def]
  split
  next heq =>
    rw [List.cons.injEq] at heq
    exact absurd heq.1 h
  next => rfl

theorem wheelHexToRgb_grammar (s : Str) (rgb : RGB) :
    wheelHexToRgb s = some rgb ↔
      ∃ c1 c2 c3 c4 c5 c6,
        (s = [c1, c2, c3, c4, c5, c6] ∨ s = '#' :: [c1, c2, c3, c4, c5, c6]) ∧
        (isHexDigit c1 ∧ isHexDigit c2 ∧ isHexDigit c3 ∧
         isHexDigit c4 ∧ isHexDigit c5 ∧ isHexDigit c6) ∧
        rgb = ⟨(16 * hexVal c1 + hexVal c2 : Nat), (16 * hexVal c3 + hexVal c4 : Nat),
               (16 * hexVal c5 + hexVal c6 : Nat)⟩ := by
  constructor
  · intro h
    unfold wheelHexToRgb at h
    rcases hbody : stripHash s with _ | ⟨c1, t1⟩ <;> rw [hbody] at h
    · simp at h
    rcases t1 with _ | ⟨c2, t2⟩
    · simp at h
    rcases t2 with _ | ⟨c3, t3⟩
    · simp at h
    rcases t3 with _ | ⟨c4, t4⟩
    · simp at h
    rcases t4 with _ | ⟨c5, t5⟩
    · simp at h
    rcases t5 with _ | ⟨c6, t6⟩
    · simp at h
    rcases t6 with _ | ⟨c7, t7⟩
    case cons.cons.cons.cons.cons.cons.cons => simp at h
    simp only at h
    split at h
    case isTrue hall =>
      simp only [Option.some.injEq] at h
      refine ⟨c1, c2, c3, c4, c5, c6, ?_, ?_, h.symm⟩
      · rcases s with _ | ⟨a, t⟩
        · exact absurd hbody (by simp [stripHash])
        · by_cases ha : a = '#'
          · subst ha
            right
            rw [← hbody]
            rfl
          · left
            rw [← hbody, stripHash_cons_ne a t ha]
      · simp only [Bool.and_eq_true, decide_eq_true_eq] at hall
        exact ⟨by simp [hall], by simp [hall], by simp [hall], by simp [hall],
          by simp [hall], by simp [hall]⟩
    case isFalse => exact absurd h (by simp)
  · rintro ⟨c1, c2, c3, c4, c5, c6, hs, hd, hrgb⟩
    have hbody : stripHash s = [c1, c2, c3, c4, c5, c6] := by
      rcases hs with rfl | rfl
      · have hc1 : c1 ≠ '#' := by
          intro hc
          subst hc
          exact absurd hd.1 (by decide)
        exact stripHash_cons_ne c1 _ hc1
      · rfl
    unfold wheelHexToRgb
    rw [hbody]
    have hall : (isHexDigit c1 && isHexDigit c2 && isHexDigit c3 &&
        isHexDigit c4 && isHexDigit c5 && isHexDigit c6) = true := by
      simp only [Bool.and_eq_true]
      exact ⟨⟨⟨⟨⟨hd.1, hd.2.1⟩, hd.2.2.1⟩, hd.2.2.2.1⟩, hd.2.2.2.2.1⟩, hd.2.2.2.2.2⟩
    simp only [hall, if_true]
    rw [hrgb]

/-! ## Claim C4: per-record parsing, skipping malformed records -/

theorem parseStyleRecord_isSome (b : Bool) (i : Nat) (s : Str) :
    (parseStyleRecord b i s).isSome = recordMatches b s := by
  unfold parseStyleRecord recordMatches
  cases b with
  | true =>
    simp only [if_true]
    cases hm : studioMatch s <;> simp [hm]
  | false =>
    simp only [Bool.false_eq_true, if_false]
    cases hm : levelMatch s <;> simp [hm]

theorem parseStylesAux_spec (b : Bool) :
    ∀ (rs : List Str) (i : Nat),
      parseStylesAux b i rs =
        ((List.enumFrom i rs).filterMap (fun p => parseStyleRecord b p.1 p.2),
         rs.filter (fun s => !recordMatches b s))
  | [], i => rfl
  | s :: rest, i => by
    have ih := parseStylesAux_spec b rest (i + 1)
    rw [parseStylesAux, ih]
    simp only [List.enumFrom, List.filterMap_cons, List.filter_cons]
    cases hm : parseStyleRecord b i s with
    | some e =>
      have hrm : recordMatches b s = true := by
        rw [← parseStyleRecord_isSome b i s, hm]
        rfl
      simp [hrm]
    | none =>
      have hrm : recordMatches b s = false := by
        rw [← parseStyleRecord_isSome b i s, hm]
        rfl
      simp [hrm]

/-- Claim C4: `parseStyles` produces exactly one ColorEntry per record
that matches its dialect's grammar, in document order; every record
that fails to match is skipped with a diagnostic (collected here as the
warning list) and contributes no entry, and a malformed record never
prevents the remaining records from being parsed. In particular a block
with one well-formed record and one record missing a channel yields
exactly one entry plus one warning. -/
theorem parseStyles_per_record (b : Bool) (rs : List Str) :
    (parseStyles b rs).1 =
      (List.enumFrom 0 rs).filterMap (fun p => parseStyleRecord b p.1 p.2) ∧
    (parseStyles b rs).2 = rs.filter (fun s => !recordMatches b s) ∧
    ((parseStyles true [styleBodyGood, styleBodyBad]).1.length = 1 ∧
     (parseStyles true [styleBodyGood, styleBodyBad]).2 = [styleBodyBad]) := by
  refine ⟨?_, ?_, by decide, by decide⟩
  · rw [parseStyles, parseStylesAux_spec]
  · rw [parseStyles, parseStylesAux_spec]

/-! ## Claim C3: toggling a keyframe twice -/

/-- Counterexample to claim C3 as stated: for an entry that already has
a keyframe at frame 5 whose color differs from what interpolation would
reconstruct, toggling twice does not restore the original keyframe
list (the re-inserted keyframe carries the re-interpolated color, not
the removed one). -/
theorem toggle_twice_cex :
    (toggleKeyframe 5 exToggleEntry).bind (toggleKeyframe 5) ≠ some exToggleEntry := by
  decide

/-- Claim C3 as amended: for every ColorEntry whose keyframe track is
present and strictly ascending and which has no keyframe at frame f,
calling `toggleKeyframe` at f twice in succession (with no intervening
mutation) restores the original entry exactly. (When a keyframe already
exists at f, the second call re-inserts the color interpolated from the
remaining keyframes, which equals the removed keyframe's color only by
coincidence — see the counterexample.) -/
theorem toggle_toggle_restores (c : ColorEntry) (ks : List Keyframe) (f : Int)
    (hks : c.keyframes = some ks) (hs : StrictByFrame ks)
    (hf : ∀ k ∈ ks, k.frame ≠ f) :
    ∃ c1, toggleKeyframe f c = some c1 ∧ toggleKeyframe f c1 = some c := by
  have hany : ks.any (fun kf => kf.frame == f) = false := by
    rw [List.any_eq_false]
    intro k hk
    simpa using hf k hk
  have hpw : List.Pairwise (fun a b => a.frame < b.frame) ks := (strictByFrame_iff ks).1 hs
  set fc := getInterpolatedColor f c with hfc
  set k : Keyframe := ⟨f, fc.r, fc.g, fc.b, fc.a⟩ with hk
  have hsortEq : sortKfs (ks ++ [k]) = List.orderedInsert kfLE k ks := by
    rw [sortKfs]
    exact insertionSort_append_singleton k ks hpw (fun x hx => by rw [hk]; exact hf x hx)
  refine ⟨{ c with keyframes := some (sortKfs (ks ++ [k])) }, ?_, ?_⟩
  · rw [toggleKeyframe.eq_def, hks]
    simp only [hany, Bool.false_eq_true, if_false]
  · rw [toggleKeyframe.eq_def]
    simp only
    have hmem : k ∈ sortKfs (ks ++ [k]) := by
      rw [sortKfs]
      exact (List.mem_insertionSort kfLE).2 (List.mem_append.2 (Or.inr (List.mem_singleton.2 rfl)))
    have hany2 : (sortKfs (ks ++ [k])).any (fun kf => kf.frame == f) = true :=
      List.any_eq_true.2 ⟨k, hmem, by simp [hk]⟩
    simp only [hany2, if_true]
    have herase : (sortKfs (ks ++ [k])).eraseP (fun kf => kf.frame == f) = ks := by
      rw [hsortEq]
      have : (fun kf : Keyframe => kf.frame == f) = (fun kf : Keyframe => kf.frame == k.frame) := by
        funext kf
        rw [hk]
      rw [this]
      exact eraseP_orderedInsert k ks (fun x hx => by rw [hk]; exact hf x hx)
    rw [herase]
    cases c with
    | mk ht idv nmv tgv rv gv bv av rov oiv kfv =>
      have hkf : kfv = some ks := hks
      subst hkf
      rfl

/-- Witness for the amended C3 at a concrete two-keyframe entry and a
frame between the keyframes. -/
theorem toggle_toggle_restores_witness :
    ∃ c1, toggleKeyframe 5 exInterpEntry = some c1 ∧
      toggleKeyframe 5 c1 = some exInterpEntry :=
  toggle_toggle_restores exInterpEntry exInterpKs 5 rfl (by decide) (by decide)

/-! ## Claim C6: keyframe track invariant -/

theorem strict_sortKfs_of_nodup_frames (L : List Keyframe)
    (h : (L.map Keyframe.frame).Nodup) : StrictByFrame (sortKfs L) := by
  have hsorted : List.Pairwise kfLE (sortKfs L) := List.sorted_insertionSort kfLE L
  have hperm : (sortKfs L).Perm L := List.perm_insertionSort kfLE L
  have h2 : ((sortKfs L).map Keyframe.frame).Nodup :=
    ((hperm.map Keyframe.frame).nodup_iff).2 h
  have h3 : List.Pairwise (fun a b : Keyframe => a.frame ≠ b.frame) (sortKfs L) :=
    List.pairwise_map.1 h2
  exact strict_of_sorted_nodup hsorted h3

theorem animKeyframes_frames_sublist :
    ∀ kfNodes : List (Int × List Str),
      ((kfNodes.filterMap (fun p => animKeyframe p.1 p.2)).map Keyframe.frame).Sublist
        (kfNodes.map Prod.fst)
  | [] => List.Sublist.refl []
  | (fr, toks) :: rest => by
    have ih := animKeyframes_frames_sublist rest
    by_cases h : 6 ≤ toks.length
    · simp only [List.filterMap_cons, animKeyframe, h, if_true, List.map_cons]
      exact List.Sublist.cons₂ fr ih
    · simp only [List.filterMap_cons, animKeyframe, h, if_false, List.map_cons]
      exact List.Sublist.cons fr ih

theorem updateFirstKf_map_frame (f : Int) (upd : Keyframe → Keyframe)
    (hupd : ∀ k, (upd k).frame = k.frame) :
    ∀ l : List Keyframe, (updateFirstKf f upd l).map Keyframe.frame = l.map Keyframe.frame
  | [] => rfl
  | k :: l => by
    rw [updateFirstKf]
    split
    next => simp [hupd k]
    next => simp [updateFirstKf_map_frame f upd hupd l]

/-- Claim C6 as amended: after the keyframe-track operations the list
is always sorted ascending by frame, and it additionally has pairwise
distinct frames provided (for animation parsing) the source block's
keyframes carry pairwise distinct `frame` attributes — `parseAnimation`
sorts but does not deduplicate, so a file with two keyframes at the
same frame violates uniqueness (see the counterexample). Keyframe
toggling and the color-picker keyframe writes preserve the full
invariant unconditionally. -/
theorem keyframe_track_invariant :
    (∀ (kfNodes : List (Int × List Str)) (c : ColorEntry),
      ∃ ks, (parseAnimStyle kfNodes c).keyframes = some ks ∧
        List.Pairwise kfLE ks ∧
        ((kfNodes.map Prod.fst).Nodup → StrictByFrame ks)) ∧
    (∀ (c : ColorEntry) (ks : List Keyframe) (f : Int),
      c.keyframes = some ks → StrictByFrame ks →
      ∃ c2 ks2, toggleKeyframe f c = some c2 ∧ c2.keyframes = some ks2 ∧
        StrictByFrame ks2) ∧
    (∀ (picked : RGB) (selFrame : Int) (c : ColorEntry) (ks : List Keyframe),
      c.keyframes = some ks → StrictByFrame ks →
      ∃ ks2, (applyPickedColor picked selFrame c).keyframes = some ks2 ∧
        StrictByFrame ks2) := by
  refine ⟨?_, ?_, ?_⟩
  · intro kfNodes c
    refine ⟨_, rfl, List.sorted_insertionSort kfLE _, ?_⟩
    intro hnd
    exact strict_sortKfs_of_nodup_frames _
      ((animKeyframes_frames_sublist kfNodes).nodup hnd)
  · intro c ks f hks hs
    rw [toggleKeyframe.eq_def, hks]
    simp only
    by_cases hany : ks.any (fun kf => kf.frame == f) = true
    · refine ⟨_, ks.eraseP (fun kf => kf.frame == f), by rw [if_pos hany], rfl, ?_⟩
      rw [strictByFrame_iff] at hs ⊢
      exact List.Pairwise.sublist (List.eraseP_sublist ks) hs
    · rw [if_neg hany]
      refine ⟨_, _, rfl, rfl, ?_⟩
      apply strict_sortKfs_append ks _ hs
      intro x hx hc
      exact hany (List.any_eq_true.2 ⟨x, hx, by simp [hc]⟩)
  · intro picked selFrame c ks hks hs
    rw [applyPickedColor.eq_def, hks]
    simp only
    by_cases hany : ks.any (fun kf => kf.frame == selFrame) = true
    · rw [if_pos hany]
      refine ⟨_, rfl, ?_⟩
      unfold StrictByFrame
      rw [updateFirstKf_map_frame selFrame
        (fun k => { k with r := picked.r, g := picked.g, b := picked.b })
        (fun k => rfl) ks]
      exact hs
    · rw [if_neg hany]
      by_cases hlen : 0 < ks.length
      · rw [if_pos hlen]
        refine ⟨_, rfl, ?_⟩
        apply strict_sortKfs_append ks _ hs
        intro x hx hc
        exact hany (List.any_eq_true.2 ⟨x, hx, by simp [hc]⟩)
      · rw [if_neg hlen]
        exact ⟨ks, rfl, hs⟩

/-- Counterexample to C6 as stated: parsing an animation style whose
block carries two keyframes with the same `frame` attribute stores a
track with duplicate frames (sorted, but not unique). -/
theorem keyframe_invariant_cex :
    (parseAnimStyle [(5, exAnimTokens), (5, exAnimTokens)] exAnimEntry).keyframes =
      some [⟨5, 1, 2, 3, 4⟩, ⟨5, 1, 2, 3, 4⟩] ∧
    ¬ StrictByFrame [⟨5, 1, 2, 3, 4⟩, ⟨5, 1, 2, 3, 4⟩] := by
  constructor
  · decide
  · decide

/-- Witness for the amended C6 on a concrete animated entry. -/
theorem keyframe_track_invariant_witness :
    ∃ c2 ks2, toggleKeyframe 5 exInterpEntry = some c2 ∧ c2.keyframes = some ks2 ∧
      StrictByFrame ks2 :=
  keyframe_track_invariant.2.1 exInterpEntry exInterpKs 5 rfl (by decide)

/-! ## Claim C2: interpolation matches the specification -/

theorem maxByFrame?_sorted :
    ∀ l : List Keyframe, List.Pairwise (fun a b => a.frame < b.frame) l →
      maxByFrame? l = l.getLast?
  | [], _ => rfl
  | k :: l, hpw => by
    have hal : ∀ x ∈ l, k.frame < x.frame := (List.pairwise_cons.1 hpw).1
    have ih := maxByFrame?_sorted l (List.pairwise_cons.1 hpw).2
    cases hl : l.getLast? with
    | none =>
      rw [maxByFrame?, ih, hl, List.getLast?_cons, hl]
      rfl
    | some m =>
      have hm : m ∈ l := List.mem_of_mem_getLast? hl
      rw [maxByFrame?, ih, hl, List.getLast?_cons, hl]
      simp [if_pos (hal m hm)]

theorem minByFrame?_sorted :
    ∀ l : List Keyframe, List.Pairwise (fun a b => a.frame < b.frame) l →
      minByFrame? l = l.head?
  | [], _ => rfl
  | k :: l, hpw => by
    have hal : ∀ x ∈ l, k.frame < x.frame := (List.pairwise_cons.1 hpw).1
    have ih := minByFrame?_sorted l (List.pairwise_cons.1 hpw).2
    cases hl : l.head? with
    | none =>
      rw [minByFrame?, ih, hl]
      rfl
    | some m =>
      have hm : m ∈ l := List.mem_of_mem_head? hl
      have hnlt : ¬ (m.frame < k.frame) := not_lt.2 (le_of_lt (hal m hm))
      rw [minByFrame?, ih, hl]
      simp [hnlt]

theorem sorted_le_getLast :
    ∀ {ks : List Keyframe}, List.Pairwise (fun a b => a.frame < b.frame) ks →
      ∀ {kl : Keyframe}, ks.getLast? = some kl → ∀ k ∈ ks, k.frame ≤ kl.frame := by
  intro ks
  induction ks with
  | nil =>
    intro _ kl hkl
    exact absurd hkl (by simp)
  | cons a l ih =>
    intro hpw kl hkl k hk
    have hal : ∀ x ∈ l, a.frame < x.frame := (List.pairwise_cons.1 hpw).1
    have hlp := (List.pairwise_cons.1 hpw).2
    rw [List.getLast?_cons] at hkl
    have hkl2 : l.getLast?.getD a = kl := Option.some.inj hkl
    cases hl : l.getLast? with
    | none =>
      have hle : l = [] := List.getLast?_eq_none_iff.1 hl
      subst hle
      rw [hl] at hkl2
      simp only [Option.getD_none] at hkl2
      subst hkl2
      rcases List.mem_cons.1 hk with rfl | h
      · exact le_refl _
      · simp at h
    | some m =>
      rw [hl] at hkl2
      simp only [Option.getD_some] at hkl2
      subst hkl2
      rcases List.mem_cons.1 hk with rfl | h
      · exact le_of_lt (hal m (List.mem_of_mem_getLast? hl))
      · exact ih hlp hl k h

/-- Claim C2: for every ColorEntry whose keyframes list is present,
sorted ascending with unique frames, `getInterpolatedColor` computes
exactly what the specification states: the static base on an empty
list; the nearest endpoint keyframe's color exactly at or beyond the
endpoints (flat extrapolation, exact at endpoints); and otherwise, with
`prev` the keyframe of greatest frame ≤ query and `next` the keyframe
of least frame ≥ query, `round(prevC + (nextC - prevC) *
(frame - prev.frame) / (next.frame - prev.frame))` per channel, with no
division by zero when `prev.frame = next.frame`. -/
theorem getInterpolatedColor_matches_spec (c : ColorEntry) (ks : List Keyframe)
    (f : Int) (hks : c.keyframes = some ks) (hs : StrictByFrame ks) :
    getInterpolatedColor f c = interpSpec f ⟨c.r, c.g, c.b, c.a⟩ ks := by
  rw [getInterpolatedColor.eq_def, hks]
  cases ks with
  | nil => rfl
  | cons k0 rest =>
    have hpw : List.Pairwise (fun a b => a.frame < b.frame) (k0 :: rest) :=
      (strictByFrame_iff _).1 hs
    have hal : ∀ x ∈ rest, k0.frame < x.frame := (List.pairwise_cons.1 hpw).1
    have hkl : (k0 :: rest).getLast? = some (rest.getLast?.getD k0) := List.getLast?_cons
    set kl := rest.getLast?.getD k0 with hkldef
    have hlen : ¬ ((k0 :: rest).length = 0) := by simp
    dsimp only
    rw [if_neg hlen, interpSpec.eq_def]
    simp only [hkl]
    rcases le_or_lt f k0.frame with hle | hgt
    · rw [if_pos hle]
      by_cases h0 : k0.frame ≤ f
      · have hrest : rest.filter (fun k => k.frame ≤ f) = [] := by
          rw [List.filter_eq_nil_iff]
          intro x hx
          have := hal x hx
          simp only [decide_eq_true_eq]
          omega
        have hful : (k0 :: rest).filter (fun k => k.frame ≤ f) = [k0] := by
          rw [List.filter_cons]
          simp [h0, hrest]
        have hfind : (k0 :: rest).find? (fun k => f ≤ k.frame) = some k0 := by
          rw [List.find?_cons]
          simp [hle]
        simp [hful, hfind, kfRGBA]
      · have hful : (k0 :: rest).filter (fun k => k.frame ≤ f) = [] := by
          rw [List.filter_eq_nil_iff]
          intro x hx
          simp only [decide_eq_true_eq]
          rcases List.mem_cons.1 hx with rfl | hxr
          · omega
          · have := hal x hxr
            omega
        have hfind : (k0 :: rest).find? (fun k => f ≤ k.frame) = some k0 := by
          rw [List.find?_cons]
          simp [hle]
        simp [hful, hfind, kfRGBA]
    · rw [if_neg (not_le.2 hgt)]
      rcases le_or_lt kl.frame f with hlast | hmid
      · rw [if_pos hlast]
        have hmax := sorted_le_getLast hpw hkl
        have hful : (k0 :: rest).filter (fun k => k.frame ≤ f) = k0 :: rest := by
          rw [List.filter_eq_self]
          intro x hx
          simp only [decide_eq_true_eq]
          exact le_trans (hmax x hx) hlast
        have hne : (k0 :: rest) ≠ [] := by simp
        have hgl : (k0 :: rest).getLast hne = kl := by
          have h1 := List.getLast?_eq_getLast (k0 :: rest) hne
          rw [h1] at hkl
          exact Option.some.inj hkl
        have hsplit : (k0 :: rest).dropLast ++ [kl] = k0 :: rest := by
          rw [← hgl]
          exact List.dropLast_append_getLast hne
        have hdrop : ∀ y ∈ (k0 :: rest).dropLast, (decide (f ≤ y.frame)) = false := by
          intro y hy
          have hy2 : y ∈ (k0 :: rest).dropLast ++ [kl] := List.mem_append.2 (Or.inl hy)
          rw [hsplit] at hy2
          have hpw2 : List.Pairwise (fun a b => a.frame < b.frame)
              ((k0 :: rest).dropLast ++ [kl]) := by
            rw [hsplit]
            exact hpw
          have hylt : y.frame < kl.frame :=
            (List.pairwise_append.1 hpw2).2.2 y hy kl (List.mem_singleton.2 rfl)
          simp only [decide_eq_false_iff_not, not_le]
          omega
        have hfind : (k0 :: rest).find? (fun k => f ≤ k.frame) =
            (if (decide (f ≤ kl.frame)) = true then some kl else none) := by
          rw [← hsplit]
          exact find?_append_singleton _ kl _ hdrop
        by_cases hfk : f ≤ kl.frame
        · have hfind2 : (k0 :: rest).find? (fun k => f ≤ k.frame) = some kl := by
            rw [hfind]
            simp [hfk]
          simp [hful, hfind2, hkl, kfRGBA]
        · have hfind2 : (k0 :: rest).find? (fun k => f ≤ k.frame) = none := by
            rw [hfind]
            simp [hfk]
          simp [hful, hfind2, hkl, kfRGBA]
      · rw [if_neg (not_le.2 hmid)]
        have hk0f : k0.frame ≤ f := le_of_lt hgt
        have hk0P1 : k0 ∈ (k0 :: rest).filter (fun k => k.frame ≤ f) :=
          List.mem_filter.2 ⟨List.mem_cons_self _ _, by simpa using hk0f⟩
        obtain ⟨p, hp⟩ : ∃ p, ((k0 :: rest).filter (fun k => k.frame ≤ f)).getLast? = some p := by
          cases hP : ((k0 :: rest).filter (fun k => k.frame ≤ f)).getLast? with
          | none =>
            rw [List.getLast?_eq_none_iff] at hP
            rw [hP] at hk0P1
            exact absurd hk0P1 (List.not_mem_nil k0)
          | some p => exact ⟨p, rfl⟩
        have hklmem : kl ∈ k0 :: rest := List.mem_of_mem_getLast? hkl
        have hklP2 : kl ∈ (k0 :: rest).filter (fun k => f ≤ k.frame) :=
          List.mem_filter.2 ⟨hklmem, by simp [le_of_lt hmid]⟩
        obtain ⟨n, hn⟩ : ∃ n, ((k0 :: rest).filter (fun k => f ≤ k.frame)).head? = some n := by
          cases hP : ((k0 :: rest).filter (fun k => f ≤ k.frame)).head? with
          | none =>
            rw [List.head?_eq_none_iff] at hP
            rw [hP] at hklP2
            exact absurd hklP2 (List.not_mem_nil kl)
          | some n => exact ⟨n, rfl⟩
        have hmaxeq : maxByFrame? ((k0 :: rest).filter (fun k => k.frame ≤ f)) = some p := by
          rw [maxByFrame?_sorted _ (List.Pairwise.sublist (List.filter_sublist _) hpw)]
          exact hp
        have hmineq : minByFrame? ((k0 :: rest).filter (fun k => f ≤ k.frame)) = some n := by
          rw [minByFrame?_sorted _ (List.Pairwise.sublist (List.filter_sublist _) hpw)]
          exact hn
        have hfind : (k0 :: rest).find? (fun k => f ≤ k.frame) = some n := by
          rw [find?_eq_head?_filter]
          exact hn
        by_cases hpn : p.frame = n.frame
        · have hdz : n.frame - p.frame = 0 := by omega
          simp [hp, hfind, hmaxeq, hmineq, hdz, hpn, kfRGBA]
        · have hdz : ¬ (n.frame - p.frame = 0) := by omega
          simp only [hp, hfind, hmaxeq, hmineq, Option.getD_some]
          rw [if_neg hdz, if_neg hpn]
          rw [interpChannel_eq_specChannel p.r n.r p.frame n.frame f (by omega),
            interpChannel_eq_specChannel p.g n.g p.frame n.frame f (by omega),
            interpChannel_eq_specChannel p.b n.b p.frame n.frame f (by omega),
            interpChannel_eq_specChannel p.a n.a p.frame n.frame f (by omega)]

/-- Witness for C2 at the specification's boundary example (keyframes
at frames 0 and 10, queried at the midpoint frame 5). -/
theorem getInterpolatedColor_matches_spec_witness :
    getInterpolatedColor 5 exInterpEntry =
      interpSpec 5 ⟨exInterpEntry.r, exInterpEntry.g, exInterpEntry.b, exInterpEntry.a⟩
        exInterpKs :=
  getInterpolatedColor_matches_spec exInterpEntry exInterpKs 5 rfl (by decide)

/-! ## Claim C7: `addColor` appends one synthesized entry -/

theorem getShortId_no_dash (s : Str) : ∀ ch ∈ getShortId s, ch ≠ '-' := by
  intro ch hch
  unfold getShortId at hch
  rw [List.mem_reverse] at hch
  have := List.mem_takeWhile_imp hch
  simpa using this

theorem map_natCast_nonneg {o : Option Nat} {v : Int}
    (h : o.map (fun n => (n : Int)) = some v) : 0 ≤ v := by
  cases o with
  | none => simp at h
  | some n =>
    have hv : (n : Int) = v := Option.some.inj h
    omega

theorem jsParseInt_nonneg (s : Str) (hnd : ∀ ch ∈ s, ch ≠ '-') (v : Int)
    (h : jsParseInt s = some v) : 0 ≤ v := by
  rw [jsParseInt.eq_def] at h
  simp only at h
  split at h
  next rest heq =>
    have : '-' ∈ s.dropWhile isSpaceChar := by
      rw [heq]
      exact List.mem_cons_self _ _
    have hmem : '-' ∈ s := (List.dropWhile_sublist isSpaceChar).mem this
    exact absurd rfl (hnd '-' hmem)
  next rest heq => exact map_natCast_nonneg h
  next heq1 heq2 => exact map_natCast_nonneg h

theorem dropWhile_space_digits (ds : Str) (hd : ∀ ch ∈ ds, isDigitChar ch = true) :
    ds.dropWhile isSpaceChar = ds := by
  have := takeWhile_dropWhile_append (p := isSpaceChar) [] ds (by intro x hx; simp at hx)
    (by
      intro y hy
      have : y ∈ ds := List.mem_of_mem_head? hy
      exact isDigitChar_not_space (hd y this))
  simpa using this.2

theorem jsParseInt_natDigits (m : Nat) : jsParseInt (natDigits m) = some (m : Int) := by
  have hd := natDigits_digits m
  have hne := natDigits_ne_nil m
  have hdrop : (natDigits m).dropWhile isSpaceChar = natDigits m := dropWhile_space_digits _ hd
  have hval : digitsPrefixVal (natDigits m) = some m := by
    unfold digitsPrefixVal
    rw [(takeWhile_all (natDigits m) hd).1]
    rw [if_neg hne]
    rw [digitsToNat_natDigits]
  rw [jsParseInt.eq_def]
  simp only [hdrop]
  split
  next rest heq =>
    exfalso
    have : '-' ∈ natDigits m := by rw [heq]; exact List.mem_cons_self _ _
    exact isDigitChar_ne_dash (hd '-' this) rfl
  next rest heq =>
    exfalso
    have : '+' ∈ natDigits m := by rw [heq]; exact List.mem_cons_self _ _
    exact isDigitChar_ne_plus (hd '+' this) rfl
  next =>
    rw [hval]
    rfl

theorem getShortId_quoted_append (stem ds : Str)
    (hq : ∀ ch ∈ stem, ch ≠ '"') (hd : ∀ ch ∈ ds, isDigitChar ch = true)
    (hend : stem = [] ∨ stem.getLast? = some '-') :
    getShortId ('"' :: (stem ++ ds) ++ ['"']) = ds := by
  unfold getShortId
  have h1 : stem.filter (fun c => c ≠ '"') = stem :=
    List.filter_eq_self.2 (fun a ha => by simpa using hq a ha)
  have h2 : ds.filter (fun c => c ≠ '"') = ds :=
    List.filter_eq_self.2 (fun a ha => by simpa using isDigitChar_ne_quote (hd a ha))
  have h3 : (['"'] : Str).filter (fun c => c ≠ '"') = [] := by decide
  have hq2 : ('"' :: (stem ++ ds) ++ ['"']).filter (fun c => c ≠ '"') = stem ++ ds := by
    have hform : ('"' :: (stem ++ ds) ++ ['"'] : Str) = ['"'] ++ stem ++ ds ++ ['"'] := by
      simp
    rw [hform, List.filter_append, List.filter_append, List.filter_append,
      h3, h1, h2]
    simp
  rw [hq2]
  dsimp only
  rw [List.reverse_append]
  have htake : (ds.reverse ++ stem.reverse).takeWhile (fun c => c ≠ '-') = ds.reverse := by
    have hds : ∀ x ∈ ds.reverse, (fun c : Char => (c ≠ '-' : Bool)) x = true := by
      intro x hx
      rw [List.mem_reverse] at hx
      simpa using isDigitChar_ne_dash (hd x hx)
    rcases hend with rfl | hlast
    · simp only [List.reverse_nil, List.append_nil]
      exact (takeWhile_all _ hds).1
    · refine (takeWhile_dropWhile_append ds.reverse stem.reverse hds ?_).1
      intro y hy
      rw [List.head?_reverse, hlast] at hy
      have hy2 : y = '-' := (Option.some.inj hy).symm
      subst hy2
      decide
  rw [htake, List.reverse_reverse]

/-- The entry `addColor` pushes, given the frame-0 RGBA it resolved. -/
def addColorEntry (st : AppState) (rgba : RGBA) : ColorEntry :=
  { hasTrace := false,
    id := '"' :: (addColorStem st ++ intToStr (nextShortId st.colors)) ++ ['"'],
    name := "new_color".data, tagID := "3".data,
    r := rgba.r, g := rgba.g, b := rgba.b, a := rgba.a,
    role := .none, originalIndex := st.colors.length, keyframes := some [] }

/-- The state `addColor` leaves behind. -/
def addColorResult (st : AppState) (rgba : RGBA) : AppState :=
  { st with colors := st.colors ++ [addColorEntry st rgba],
            selectedColorIndex := (st.colors.length : Int),
            selectedFrame := 0, endFrame := 100 }

theorem uiAddColor_sel (st : AppState) (sc : ColorEntry)
    (h0 : 0 ≤ st.selectedColorIndex)
    (hget : st.colors.get? st.selectedColorIndex.toNat = some sc) :
    uiAddColor st = some (addColorResult st (getInterpolatedColor 0 sc)) := by
  rw [uiAddColor.eq_def]
  simp only [h0, if_true, hget]
  rfl

theorem uiAddColor_nosel (st : AppState) (h0 : ¬ (0 ≤ st.selectedColorIndex)) :
    uiAddColor st = some (addColorResult st ⟨120, 120, 120, 255⟩) := by
  rw [uiAddColor.eq_def]
  simp only [h0, if_false]
  rfl

/-- Claim C7: `addColor` appends exactly one entry, at index equal to
the list length before insertion (append-only, no gaps), whose short id
is the maximum existing numeric short id plus 1 (or 1 if no existing
short id is numeric), whose keyframes list is empty, role is `none`,
`hasTrace` is false, and whose RGBA is copied from the currently
selected entry's frame-0 interpolated color, or is mid-gray opaque when
nothing is selected; all previously existing entries are unchanged. -/
theorem addColor_appends_spec (st : AppState)
    (hsel : 0 ≤ st.selectedColorIndex → st.selectedColorIndex.toNat < st.colors.length)
    (hq : ∀ ch ∈ addColorStem st, ch ≠ '"')
    (hend : addColorStem st = [] ∨ (addColorStem st).getLast? = some '-') :
    ∃ st2 e, uiAddColor st = some st2 ∧
      st2.colors = st.colors ++ [e] ∧
      e.keyframes = some [] ∧ e.role = .none ∧ e.hasTrace = false ∧
      e.originalIndex = st.colors.length ∧
      (∀ sc, st.colors.get? st.selectedColorIndex.toNat = some sc →
        0 ≤ st.selectedColorIndex →
        RGBA.mk e.r e.g e.b e.a = getInterpolatedColor 0 sc) ∧
      (st.selectedColorIndex < 0 →
        RGBA.mk e.r e.g e.b e.a = ⟨120, 120, 120, 255⟩) ∧
      (numericShortIds st.colors = [] → jsParseInt (getShortId e.id) = some 1) ∧
      (∀ m, (numericShortIds st.colors).max? = some m →
        jsParseInt (getShortId e.id) = some (m + 1)) := by
  have hnext_pos : 0 < nextShortId st.colors := by
    unfold nextShortId
    cases hm : (numericShortIds st.colors).max? with
    | none => simp
    | some m =>
      have hmem : m ∈ numericShortIds st.colors :=
        List.max?_mem (fun a b => max_choice a b) hm
      unfold numericShortIds at hmem
      rcases List.mem_filterMap.1 hmem with ⟨ce, _, hce⟩
      have hnn : 0 ≤ m := jsParseInt_nonneg _ (getShortId_no_dash ce.id) m hce
      simp only [Option.getD_some]
      omega
  have hint : intToStr (nextShortId st.colors) = natDigits (nextShortId st.colors).toNat := by
    rw [intToStr, if_neg (by omega)]
  have hshort : ∀ rgba, jsParseInt (getShortId (addColorEntry st rgba).id) =
      some (nextShortId st.colors) := by
    intro rgba
    show jsParseInt (getShortId
      ('"' :: (addColorStem st ++ intToStr (nextShortId st.colors)) ++ ['"'])) = _
    rw [hint, getShortId_quoted_append _ _ hq (natDigits_digits _) hend,
      jsParseInt_natDigits]
    congr 1
    omega
  by_cases h0 : 0 ≤ st.selectedColorIndex
  · have hlt := hsel h0
    rcases hget : st.colors.get? st.selectedColorIndex.toNat with _ | sc
    · rw [List.get?_eq_none] at hget
      omega
    refine ⟨addColorResult st (getInterpolatedColor 0 sc),
      addColorEntry st (getInterpolatedColor 0 sc),
      uiAddColor_sel st sc h0 hget, rfl, rfl, rfl, rfl, rfl, ?_, ?_, ?_, ?_⟩
    · intro sc2 hsc2 _
      have hss := Option.some.inj hsc2
      subst hss
      rfl
    · intro hneg
      omega
    · intro hempty
      have hone : nextShortId st.colors = 1 := by
        unfold nextShortId
        rw [hempty]
        rfl
      rw [hshort, hone]
    · intro m hm
      have hsucc : nextShortId st.colors = m + 1 := by
        unfold nextShortId
        rw [hm]
        rfl
      rw [hshort, hsucc]
  · refine ⟨addColorResult st ⟨120, 120, 120, 255⟩,
      addColorEntry st ⟨120, 120, 120, 255⟩,
      uiAddColor_nosel st h0, rfl, rfl, rfl, rfl, rfl, ?_, ?_, ?_, ?_⟩
    · intro sc2 _ hc
      exact absurd hc h0
    · intro _
      rfl
    · intro hempty
      have hone : nextShortId st.colors = 1 := by
        unfold nextShortId
        rw [hempty]
        rfl
      rw [hshort, hone]
    · intro m hm
      have hsucc : nextShortId st.colors = m + 1 := by
        unfold nextShortId
        rw [hm]
        rfl
      rw [hshort, hsucc]

/-- Witness for C7 on a one-color state with a palette prefix and no
selection. -/
theorem addColor_appends_spec_witness :
    ∃ st2 e, uiAddColor exAddState = some st2 ∧
      st2.colors = exAddState.colors ++ [e] ∧
      e.keyframes = some [] ∧ e.role = .none ∧ e.hasTrace = false ∧
      e.originalIndex = exAddState.colors.length ∧
      (∀ sc, exAddState.colors.get? exAddState.selectedColorIndex.toNat = some sc →
        0 ≤ exAddState.selectedColorIndex →
        RGBA.mk e.r e.g e.b e.a = getInterpolatedColor 0 sc) ∧
      (exAddState.selectedColorIndex < 0 →
        RGBA.mk e.r e.g e.b e.a = ⟨120, 120, 120, 255⟩) ∧
      (numericShortIds exAddState.colors = [] →
        jsParseInt (getShortId e.id) = some 1) ∧
      (∀ m, (numericShortIds exAddState.colors).max? = some m →
        jsParseInt (getShortId e.id) = some (m + 1)) :=
  addColor_appends_spec exAddState (by decide) (by decide) (by decide)

/-! ## Claim C1: studio record parse-then-export round trip -/

theorem reqSpaces_canonical (n : Nat) (ys : Str)
    (hy : ∀ y, ys.head? = some y → isDigitChar y = false) :
    reqSpacesThenDigits (' ' :: (natDigits n ++ ys)) = some (natDigits n, ys) := by
  obtain ⟨d, t, hdt⟩ : ∃ d t, natDigits n = d :: t := by
    cases hnd : natDigits n with
    | nil => exact absurd hnd (natDigits_ne_nil n)
    | cons d t => exact ⟨d, t, rfl⟩
  have hd : ∀ c ∈ natDigits n, isDigitChar c = true := natDigits_digits n
  have hdw : ((' ' :: (natDigits n ++ ys)).dropWhile isSpaceChar) = natDigits n ++ ys := by
    refine (takeWhile_dropWhile_append [' '] (natDigits n ++ ys)
      (by intro x hx; simp only [List.mem_singleton] at hx; subst hx; decide) ?_).2
    intro y hy2
    rw [hdt] at hy2
    simp only [List.cons_append, List.head?_cons, Option.some.injEq] at hy2
    subst hy2
    exact isDigitChar_not_space (hd d (by rw [hdt]; exact List.mem_cons_self _ _))
  have htw := takeWhile_dropWhile_append (p := isDigitChar) (natDigits n) ys hd hy
  rw [reqSpacesThenDigits]
  rw [if_pos (by decide : isSpaceChar ' ' = true)]
  simp only [hdw, htw.1, htw.2]
  rw [if_neg (natDigits_ne_nil n)]

theorem matchFiveNums_canonical (t r g b a : Nat) :
    matchFiveNums (' ' :: (natDigits t ++ (' ' :: (natDigits r ++ (' ' :: (natDigits g ++
      (' ' :: (natDigits b ++ (' ' :: natDigits a))))))))) =
      some (natDigits t, r, g, b, a) := by
  have hsp : ∀ (m : Nat) (zs : Str), ∀ y, (' ' :: (natDigits m ++ zs)).head? = some y →
      isDigitChar y = false := by
    intro m zs y hy
    simp only [List.head?_cons, Option.some.injEq] at hy
    subst hy
    decide
  have h5 : reqSpacesThenDigits (' ' :: natDigits a) = some (natDigits a, []) := by
    have := reqSpaces_canonical a [] (by intro y hy; simp at hy)
    simpa using this
  have h4 := reqSpaces_canonical b (' ' :: natDigits a) (by
    intro y hy
    simp only [List.head?_cons, Option.some.injEq] at hy
    subst hy
    decide)
  have h3 := reqSpaces_canonical g (' ' :: (natDigits b ++ (' ' :: natDigits a))) (hsp b _)
  have h2 := reqSpaces_canonical r
    (' ' :: (natDigits g ++ (' ' :: (natDigits b ++ (' ' :: natDigits a))))) (hsp g _)
  have h1 := reqSpaces_canonical t
    (' ' :: (natDigits r ++ (' ' :: (natDigits g ++ (' ' :: (natDigits b ++
      (' ' :: natDigits a))))))) (hsp r _)
  rw [matchFiveNums]
  rw [h1]
  simp only [Option.bind_eq_bind, Option.some_bind]
  rw [h2]
  simp only [Option.some_bind]
  rw [h3]
  simp only [Option.some_bind]
  rw [h4]
  simp only [Option.some_bind]
  rw [h5]
  simp only [Option.some_bind]
  rw [digitsToNat_natDigits r, digitsToNat_natDigits g, digitsToNat_natDigits b,
    digitsToNat_natDigits a]
  rfl

theorem studioCore_canonical (idc rawName ys : Str) (td : Str) (rv gv bv av : Nat)
    (hid : idc ≠ []) (hidq : ∀ ch ∈ idc, ch ≠ '"')
    (hnm : rawName ≠ []) (hnms : ∀ ch ∈ rawName, isSpaceChar ch = false)
    (hys : ys.head? = some ' ')
    (hm : matchFiveNums ys = some (td, rv, gv, bv, av)) :
    studioCore ('"' :: (idc ++ ('"' :: (rawName ++ ys)))) =
      some ('"' :: idc ++ ['"'], rawName, td, rv, gv, bv, av) := by
  have h1 := takeWhile_dropWhile_append (p := fun c => c ≠ '"') idc ('"' :: (rawName ++ ys))
    (fun x hx => by simpa using hidq x hx)
    (by
      intro y hy
      simp only [List.head?_cons, Option.some.injEq] at hy
      subst hy
      decide)
  have h2 := takeWhile_dropWhile_append (p := fun c => !isSpaceChar c) rawName ys
    (fun x hx => by simp [hnms x hx])
    (by
      intro y hy
      rw [hys] at hy
      have : y = ' ' := (Option.some.inj hy).symm
      subst this
      decide)
  rw [studioCore]
  simp only [h1.1, h1.2]
  rw [if_neg hid]
  simp only [h2.1, h2.2]
  rw [if_neg hnm]
  rw [hm]
  rfl

theorem studioMatch_canonical (tr : Bool) (idc rawName : Str) (t r g b a : Nat)
    (hid : idc ≠ []) (hidq : ∀ ch ∈ idc, ch ≠ '"')
    (hnm : rawName ≠ []) (hnms : ∀ ch ∈ rawName, isSpaceChar ch = false) :
    studioMatch (studioBody tr idc rawName t r g b a) =
      some ⟨tr, '"' :: idc ++ ['"'], rawName, natDigits t, r, g, b, a⟩ := by
  have hcore := studioCore_canonical idc rawName
    (' ' :: (natDigits t ++ (' ' :: (natDigits r ++ (' ' :: (natDigits g ++ (' ' :: (natDigits b ++ (' ' :: natDigits a)))))))))
    (natDigits t) r g b a hid hidq hnm hnms rfl (matchFiveNums_canonical t r g b a)
  cases tr with
  | false =>
    have hbodyX : studioBody false idc rawName t r g b a =
        '"' :: (idc ++ ('"' :: (rawName ++ (' ' :: (natDigits t ++ (' ' :: (natDigits r ++ (' ' :: (natDigits g ++ (' ' :: (natDigits b ++ (' ' :: natDigits a)))))))))))) := by
      simp [studioBody, List.append_assoc]
    rw [studioMatch, hbodyX]
    have hdw : ('"' :: (idc ++ ('"' :: (rawName ++ (' ' :: (natDigits t ++ (' ' :: (natDigits r ++ (' ' :: (natDigits g ++ (' ' :: (natDigits b ++ (' ' :: natDigits a))))))))))))).dropWhile isSpaceChar =
        '"' :: (idc ++ ('"' :: (rawName ++ (' ' :: (natDigits t ++ (' ' :: (natDigits r ++ (' ' :: (natDigits g ++ (' ' :: (natDigits b ++ (' ' :: natDigits a)))))))))))) := by
      rw [List.dropWhile_cons, if_neg (by decide : ¬ ((isSpaceChar '"') = true))]
    simp only [hdw]
    rw [hcore]
    rfl
  | true =>
    have hbody : studioBody true idc rawName t r g b a =
        '_' :: '1' :: ' ' :: ('"' :: (idc ++ ('"' :: (rawName ++ (' ' :: (natDigits t ++ (' ' :: (natDigits r ++ (' ' :: (natDigits g ++ (' ' :: (natDigits b ++ (' ' :: natDigits a))))))))))))) := by
      simp [studioBody, List.append_assoc]
    rw [studioMatch, hbody]
    have hdw : ('_' :: '1' :: ' ' :: ('"' :: (idc ++ ('"' :: (rawName ++ (' ' :: (natDigits t ++ (' ' :: (natDigits r ++ (' ' :: (natDigits g ++ (' ' :: (natDigits b ++ (' ' :: natDigits a)))))))))))))).dropWhile isSpaceChar =
        '_' :: '1' :: ' ' :: ('"' :: (idc ++ ('"' :: (rawName ++ (' ' :: (natDigits t ++ (' ' :: (natDigits r ++ (' ' :: (natDigits g ++ (' ' :: (natDigits b ++ (' ' :: natDigits a))))))))))))) := by
      rw [List.dropWhile_cons, if_neg (by decide : ¬ ((isSpaceChar '_') = true))]
    simp only [hdw]
    have hdw2 : ((' ' : Char) :: ('"' :: (idc ++ ('"' :: (rawName ++ (' ' :: (natDigits t ++ (' ' :: (natDigits r ++ (' ' :: (natDigits g ++ (' ' :: (natDigits b ++ (' ' :: natDigits a)))))))))))))).dropWhile isSpaceChar =
        '"' :: (idc ++ ('"' :: (rawName ++ (' ' :: (natDigits t ++ (' ' :: (natDigits r ++ (' ' :: (natDigits g ++ (' ' :: (natDigits b ++ (' ' :: natDigits a)))))))))))) := by
      rw [List.dropWhile_cons]
      rw [if_pos (by decide : (isSpaceChar ' ') = true)]
      rw [List.dropWhile_cons, if_neg (by decide : ¬ ((isSpaceChar '"') = true))]
    rw [if_pos (by decide : (isSpaceChar ' ') = true), hdw2, hcore]

theorem decode_recombine (raw : Str) :
    (decodeRoleName raw).1 ++ roleSuffix (decodeRoleName raw).2 = raw := by
  unfold decodeRoleName
  cases hf : rolesList.find? (fun p => !p.2.isEmpty && p.2.isSuffixOf raw) with
  | none => simp [roleSuffix]
  | some pr =>
    obtain ⟨role, suf⟩ := pr
    have hmem := List.mem_of_find?_eq_some hf
    have hpred := List.find?_some hf
    have hsuf : suf = roleSuffix role := by
      simp only [rolesList, List.mem_cons, List.not_mem_nil, or_false,
        Prod.mk.injEq] at hmem
      rcases hmem with ⟨rfl, rfl⟩ | ⟨rfl, rfl⟩ | ⟨rfl, rfl⟩ | ⟨rfl, rfl⟩ <;> rfl
    have hsfx : suf.isSuffixOf raw = true := by
      simp only [Bool.and_eq_true] at hpred
      exact hpred.2
    rw [List.isSuffixOf_iff_suffix] at hsfx
    obtain ⟨u, hu⟩ := hsfx
    simp only
    rw [← hsuf, ← hu, take_sub_append u suf _ rfl]

theorem intToStr_natCast (n : Nat) : intToStr (n : Int) = natDigits n := by
  have h : ((n : Int)).toNat = n := by simp
  rw [intToStr, if_neg (by omega), h]

/-- Claim C1: for every studio-palette style record body matching the
studio grammar in canonical token form (optional leading `_1` trace
token, a double-quoted id directly concatenated with the name, then
tagID r g b a with single-space separation), serializing the ColorEntry
produced by `parseStyles` reconstructs a byte-equivalent record body —
the same tokens in the same fixed order, with the quoted id and name
adjacent with no separator. In particular, parsing the two scenario
styles `"p-0"bg 3 255 255 255 0` and `"p-1"ink 3 0 0 0 255` yields two
entries named `bg`/`ink` with role `none`, and export reproduces those
exact record bodies. -/
theorem parse_export_roundtrip_studio :
    (∀ (tr : Bool) (idc rawName : Str) (t r g b a : Nat) (i : Nat),
      idc ≠ [] → (∀ ch ∈ idc, ch ≠ '"') →
      rawName ≠ [] → (∀ ch ∈ rawName, isSpaceChar ch = false) →
      ∃ e, parseStyleRecord true i (studioBody tr idc rawName t r g b a) = some e ∧
        e.hasTrace = tr ∧ e.id = '"' :: idc ++ ['"'] ∧
        getFullExportName e = rawName ∧ e.tagID = natDigits t ∧
        e.r = (r : Int) ∧ e.g = (g : Int) ∧ e.b = (b : Int) ∧ e.a = (a : Int) ∧
        exportStyleContent true e = studioBody tr idc rawName t r g b a) ∧
    ((parseStyles true [styleBodyGood, styleBodyInk]).1.map
        (fun e => (e.name, e.role)) =
      [("bg".data, Role.none), ("ink".data, Role.none)] ∧
     (parseStyles true [styleBodyGood, styleBodyInk]).1.map
        (fun e => exportStyleContent true e) = [styleBodyGood, styleBodyInk]) := by
  constructor
  · intro tr idc rawName t r g b a i hid hidq hnm hnms
    have hsm := studioMatch_canonical tr idc rawName t r g b a hid hidq hnm hnms
    refine ⟨parsedStudioEntry tr idc rawName t r g b a i,
      ?_, rfl, rfl, ?_, rfl, rfl, rfl, rfl, rfl, ?_⟩
    · rw [parseStyleRecord, if_pos rfl, hsm]
      rfl
    · exact decode_recombine rawName
    · unfold exportStyleContent getFullExportName parsedStudioEntry
      simp only
      rw [intToStr_natCast, intToStr_natCast, intToStr_natCast, intToStr_natCast,
        decode_recombine rawName, studioBody]
      simp [List.append_assoc]
  · exact ⟨by decide, by decide⟩

/-- Witness for C1 at the scenario's first style body. -/
theorem parse_export_roundtrip_studio_witness :
    ∃ e, parseStyleRecord true 0 (studioBody false "p-0".data "bg".data 3 255 255 255 0) =
        some e ∧
      e.hasTrace = false ∧ e.id = '"' :: "p-0".data ++ ['"'] ∧
      getFullExportName e = "bg".data ∧ e.tagID = natDigits 3 ∧
      e.r = (255 : Int) ∧ e.g = (255 : Int) ∧ e.b = (255 : Int) ∧ e.a = (0 : Int) ∧
      exportStyleContent true e = studioBody false "p-0".data "bg".data 3 255 255 255 0 :=
  parse_export_roundtrip_studio.1 false "p-0".data "bg".data 3 255 255 255 0 0
    (by decide) (by decide) (by decide) (by decide)
